import Mathlib

/-
Verification of the Noir debugger subsystem against its specification.

The development shallowly embeds the Rust sources:
  - compiler/noirc_printable_type/src/lib.rs    (printable type model)
  - tooling/nargo/src/artifacts/debug_vars.rs   (debug variable store)
  - compiler/noirc_frontend/src/debug/mod.rs    (source instrumenter)
  - compiler/noirc_frontend/src/monomorphization/debug_types.rs (type interning)
  - tooling/debugger/src/debug.rs               (command loop)

Modelling conventions:
  - A field element is modelled as a natural number (its value); to_u128
    reduces modulo 2 to the 128.
  - Fallible Rust code (unwrap, expect, assert, index panics, format panics)
    is modelled with Option, where none is a panic.
  - Machine integer arithmetic is Nat with explicit reduction modulo 2 to
    the machine width at the operations where Rust computes in u32 or usize.
  - Rust HashMap values are association lists whose insert replaces the
    first matching key in place and appends fresh keys; BTreeMap values are
    association lists kept sorted by key.
-/

namespace NoirPrintable

/-- FieldElement, modelled by its numeric value. -/
abbrev F := Nat

/-- FieldElement.to_u128: the low 128 bits of the element. -/
def toU128 (f : F) : Nat := f % 2 ^ 128

/-- PrintableType from noirc_printable_type/src/lib.rs (lines 9-49). -/
inductive PrintableType where
  | Field
  | Array (length : Option Nat) (typ : PrintableType)
  | Tuple (types : List PrintableType)
  | SignedInteger (width : Nat)
  | UnsignedInteger (width : Nat)
  | Boolean
  | Struct (name : String) (fields : List (String × PrintableType))
  | String (length : Nat)
  | FmtString
  | Error
  | Unit
  | Constant
  | TraitAsType
  | TypeVariable
  | NamedGeneric
  | Forall
  | Function (name : String) (arguments : List (String × PrintableType))
  | MutableReference
  | NotConstant

/-- PrintableValue from noirc_printable_type/src/lib.rs (lines 77-84).
The Struct map (a Rust BTreeMap) is a key-sorted association list. -/
inductive PrintableValue where
  | Field (f : F)
  | String (s : String)
  | Vec (xs : List PrintableValue)
  | Struct (m : List (String × PrintableValue))
  | Other

mutual

/-- PrintableType::field_count (lines 51-72). The Rust function computes in
u32: the array length is cast with `as u32` and products and sums wrap,
hence the reductions modulo 2 to the 32. -/
def field_count : PrintableType → Option Nat
  | .Field => some 1
  | .SignedInteger _ => some 1
  | .UnsignedInteger _ => some 1
  | .Boolean => some 1
  | .Array len typ =>
      len.bind fun l => (field_count typ).map fun x => x * (l % 2 ^ 32) % 2 ^ 32
  | .Tuple types => field_count_list types
  | .Struct _ fields => field_count_fields fields
  | .String len => some (len % 2 ^ 32)
  | _ => some 0
termination_by t => (sizeOf t, 0)

/-- Fold of field_count over a tuple component list (line 62-64). -/
def field_count_list : List PrintableType → Option Nat
  | [] => some 0
  | t :: ts =>
      (field_count t).bind fun c => (field_count_list ts).map fun r => (c + r) % 2 ^ 32
  termination_by ts => (sizeOf ts, 0)

/-- Fold of field_count over struct fields (lines 65-67). -/
def field_count_fields : List (String × PrintableType) → Option Nat
  | [] => some 0
  | (_, t) :: fs =>
      (field_count t).bind fun c => (field_count_fields fs).map fun r => (c + r) % 2 ^ 32
  termination_by fs => (sizeOf fs, 0)

end

mutual

/-- Mathematical (untruncated) element count of a printable type: the exact
number of field elements decode_value consumes. Not a Rust function; used to
compare field_count with the behaviour of decode_value. -/
def field_count_exact : PrintableType → Option Nat
  | .Field => some 1
  | .SignedInteger _ => some 1
  | .UnsignedInteger _ => some 1
  | .Boolean => some 1
  | .Array len typ => len.bind fun l => (field_count_exact typ).map fun x => x * l
  | .Tuple types => field_count_exact_list types
  | .Struct _ fields => field_count_exact_fields fields
  | .String len => some len
  | _ => some 0
termination_by t => (sizeOf t, 0)

def field_count_exact_list : List PrintableType → Option Nat
  | [] => some 0
  | t :: ts =>
      (field_count_exact t).bind fun c => (field_count_exact_list ts).map fun r => c + r
  termination_by ts => (sizeOf ts, 0)

def field_count_exact_fields : List (String × PrintableType) → Option Nat
  | [] => some 0
  | (_, t) :: fs =>
      (field_count_exact t).bind fun c => (field_count_exact_fields fs).map fun r => c + r
  termination_by fs => (sizeOf fs, 0)

end

/-- Continuation byte test for UTF-8 validation. -/
def contByte (b : Nat) : Bool := 0x80 ≤ b && b ≤ 0xBF

/-- Admissible range of the first continuation byte, which depends on the
leading byte (the E0, ED, F0 and F4 rows of the UTF-8 validation table). -/
def cont1Ok (b c1 : Nat) : Bool :=
  if b = 0xE0 then 0xA0 ≤ c1 && c1 ≤ 0xBF
  else if b = 0xED then 0x80 ≤ c1 && c1 ≤ 0x9F
  else if b = 0xF0 then 0x90 ≤ c1 && c1 ≤ 0xBF
  else if b = 0xF4 then 0x80 ≤ c1 && c1 ≤ 0x8F
  else contByte c1

/-- Decode one UTF-8 code point: the leading byte, the required continuation
bytes in their admissible ranges, and the remaining input. -/
def utf8DecodeOne (b : Nat) (rest : List Nat) : Option (Char × List Nat) :=
  if b ≤ 0x7F then some (Char.ofNat b, rest)
  else if b < 0xC2 then none
  else if b ≤ 0xDF then
    if 1 ≤ rest.length ∧ contByte (rest.getD 0 0) then
      some (Char.ofNat ((b - 0xC0) * 0x40 + (rest.getD 0 0 - 0x80)), rest.drop 1)
    else none
  else if b ≤ 0xEF then
    if 2 ≤ rest.length ∧ cont1Ok b (rest.getD 0 0) ∧ contByte (rest.getD 1 0) then
      some (Char.ofNat ((b - 0xE0) * 0x1000 + (rest.getD 0 0 - 0x80) * 0x40 +
        (rest.getD 1 0 - 0x80)), rest.drop 2)
    else none
  else if b ≤ 0xF4 then
    if 3 ≤ rest.length ∧ cont1Ok b (rest.getD 0 0) ∧ contByte (rest.getD 1 0) ∧
        contByte (rest.getD 2 0) then
      some (Char.ofNat ((b - 0xF0) * 0x40000 + (rest.getD 0 0 - 0x80) * 0x1000 +
        (rest.getD 1 0 - 0x80) * 0x40 + (rest.getD 2 0 - 0x80)), rest.drop 3)
    else none
  else none

/-- Code point loop of the UTF-8 decoder. Each step consumes at least the
leading byte, so the input length bounds the number of steps and serves as
structural fuel; the zero-fuel non-empty case is unreachable from
utf8Decode. -/
def utf8DecodeGo : Nat → List Nat → Option (List Char)
  | _, [] => some []
  | 0, _ :: _ => none
  | fuel + 1, b :: rest =>
    match utf8DecodeOne b rest with
    | none => none
    | some x => (utf8DecodeGo fuel x.2).map fun cs => x.1 :: cs

/-- UTF-8 decoding of a byte sequence, modelling str::from_utf8: returns the
character list on valid input and none (an unwrap panic in
decode_string_value) on invalid input. -/
def utf8Decode (bs : List Nat) : Option (List Char) :=
  utf8DecodeGo bs.length bs

/-- decode_string_value (lines 407-418). Each element must fit in one byte
(the assert that all leading bytes of the 32-byte encoding are zero), and the
byte sequence must be valid UTF-8 (the from_utf8 unwrap); violations panic,
modelled as none. -/
def decode_string_value (field_elements : List F) : Option String :=
  if field_elements.all (fun e => e < 256) then
    (utf8Decode field_elements).map fun cs => String.mk cs
  else none

/-- BTreeMap::insert on a key-sorted association list. -/
def btreeInsert (k : String) (v : PrintableValue) :
    List (String × PrintableValue) → List (String × PrintableValue)
  | [] => [(k, v)]
  | (k1, v1) :: rest =>
    if k = k1 then (k, v) :: rest
    else if k < k1 then (k, v) :: (k1, v1) :: rest
    else (k1, v1) :: btreeInsert k v rest

mutual

/-- decode_value (lines 348-405). The stream is a list of field elements;
the result pairs the decoded value with the remaining stream. none is a
panic: an exhausted iterator on a scalar or a variable-length array header,
or a failing string decode. The variable-array length is narrowed
`to_u128() as usize`, hence the reduction modulo 2 to the 64. -/
def decode_value (s : List F) : PrintableType → Option (PrintableValue × List F)
  | .Field =>
      match s with
      | [] => none
      | f :: r => some (.Field f, r)
  | .SignedInteger _ =>
      match s with
      | [] => none
      | f :: r => some (.Field f, r)
  | .UnsignedInteger _ =>
      match s with
      | [] => none
      | f :: r => some (.Field f, r)
  | .Boolean =>
      match s with
      | [] => none
      | f :: r => some (.Field f, r)
  | .Array none typ =>
      match s with
      | [] => none
      | f :: r =>
        (decode_repeat r typ (toU128 f % 2 ^ 64)).map fun x => (.Vec x.1, x.2)
  | .Array (some len) typ =>
      (decode_repeat s typ len).map fun x => (.Vec x.1, x.2)
  | .Tuple types => (decode_tuple s types).map fun x => (.Vec x.1, x.2)
  | .String len =>
      (decode_string_value (s.take len)).map fun str => (.String str, s.drop len)
  | .Struct _ fields => (decode_fields s [] fields).map fun x => (.Struct x.1, x.2)
  | _ => some (.Other, s)
termination_by t => (sizeOf t, 0)

/-- The element loop of the two array arms of decode_value. -/
def decode_repeat (s : List F) (typ : PrintableType) :
    Nat → Option (List PrintableValue × List F)
  | 0 => some ([], s)
  | n + 1 =>
      (decode_value s typ).bind fun x =>
        (decode_repeat x.2 typ n).map fun y => (x.1 :: y.1, y.2)
  termination_by n => (sizeOf typ, n + 1)

/-- The vecmap over tuple component types in decode_value. -/
def decode_tuple (s : List F) :
    List PrintableType → Option (List PrintableValue × List F)
  | [] => some ([], s)
  | t :: ts =>
      (decode_value s t).bind fun x =>
        (decode_tuple x.2 ts).map fun y => (x.1 :: y.1, y.2)
  termination_by ts => (sizeOf ts, 0)

/-- The struct-field loop of decode_value, accumulating the BTreeMap. -/
def decode_fields (s : List F) (acc : List (String × PrintableValue)) :
    List (String × PrintableType) → Option (List (String × PrintableValue) × List F)
  | [] => some (acc, s)
  | (key, t) :: fs =>
      (decode_value s t).bind fun x => decode_fields x.2 (btreeInsert key x.1 acc) fs
  termination_by fs => (sizeOf fs, 0)

end

/-- format_field_string (lines 337-346): 0x00 for zero, otherwise the hex
digits of the value with leading zeroes trimmed from the fixed-width to_hex
output and a single 0 prepended when the digit count is odd. -/
def format_field_string (f : F) : String :=
  if f = 0 then "0x00"
  else
    let h := Nat.toDigits 16 f
    if h.length % 2 = 1 then "0x0" ++ String.mk h else "0x" ++ String.mk h

/-- Debug rendering of the argument-name iterator in the Function arm of
to_string. The Rust code formats `arguments.iter().map(..)` with the Debug
trait; the model keeps the quoted argument names, abbreviating the
Map/Iter adaptor noise that the Debug output wraps them in. -/
def fn_args_debug (arguments : List (String × PrintableType)) : String :=
  String.intercalate ", " (arguments.map fun a => "\"" ++ a.1 ++ "\"")

/-- First-match lookup in an association list (map-like access). -/
def alookup {α : Type} (k : String) : List (String × α) → Option α
  | [] => none
  | (k1, v) :: rest => if k = k1 then some v else alookup k rest

mutual

/-- to_string (lines 199-291). The result is layered: none is a panic
(a `map[key]` lookup of a missing struct field, or a nested element whose
Display implementation fails inside format!, which panics); some none is the
`_ => return None` fall-through, which the Display implementation turns into
a format error; some (some s) is Some(s). Arms appear in source order. -/
def to_string : PrintableValue → PrintableType → Option (Option String)
  | .Field f, .Field => some (some (format_field_string f))
  | .Field f, .UnsignedInteger w =>
      -- f.to_u128() & ((1 << width) - 1)
      some (some (Nat.repr (toU128 f % 2 ^ w)))
  | .Field f, .SignedInteger w =>
      -- two complement display: the width 0 shift `uint >> (width - 1)`
      -- underflows in Rust, a panic
      if w = 0 then none
      else
        let u := toU128 f
        if u >>> (w - 1) = 1 then
          some (some ("-" ++ Nat.repr ((u ^^^ (2 ^ w - 1)) + 1)))
        else some (some (Nat.repr u))
  | .Field f, .Boolean =>
      if f = 1 then some (some "true") else some (some "false")
  | .Field _, .Function name arguments =>
      some (some ("<<fn " ++ name ++ "(" ++ fn_args_debug arguments ++ ")>>"))
  | _, .MutableReference => some (some "<<mutable ref>>")
  | .Vec vector, .Array _ typ =>
      (to_string_vec vector typ).map fun ss =>
        some ("[" ++ String.intercalate ", " ss ++ "]")
  | .String s, .String _ => some (some s)
  | .Struct m, .Struct name fields =>
      (to_string_struct m fields).map fun ss =>
        some (name ++ " \x7b " ++ String.intercalate ", " ss ++ " \x7d")
  | .Vec values, .Tuple types =>
      (to_string_tuple values types).map fun ss =>
        some ("(" ++ String.intercalate ", " ss ++ ")")
  | _, _ => some none
termination_by v _ => (sizeOf v, 0)

/-- Array element loop of to_string: each element is rendered through
Display of PrintableValueDisplay::Plain inside format!, so an element that
returns None makes format! panic; none propagates both panics. -/
def to_string_vec (vs : List PrintableValue) (typ : PrintableType) :
    Option (List String)
  := match vs with
  | [] => some []
  | v :: rest =>
      match to_string v typ with
      | some (some s) => (to_string_vec rest typ).map fun ss => s :: ss
      | _ => none
  termination_by (sizeOf vs, 1)

/-- Struct field loop of to_string: looks each field name up in the value
map (a panic when absent) and renders the field value through Display. -/
def to_string_struct (m : List (String × PrintableValue)) :
    List (String × PrintableType) → Option (List String)
  | [] => some []
  | (key, ftyp) :: fields =>
      match hl : alookup key m with
      | none => none
      | some v =>
        match to_string v ftyp with
        | some (some s) =>
            (to_string_struct m fields).map fun ss => (key ++ ": " ++ s) :: ss
        | _ => none
  termination_by fields => (sizeOf m, 1 + sizeOf fields)
  decreasing_by
  · have hs : ∀ (kk : String) (mm : List (String × PrintableValue)),
        alookup kk mm = some v → sizeOf v < sizeOf mm := by
      intro kk mm
      induction mm with
      | nil => intro h; simp [alookup] at h
      | cons kv rest ih =>
        obtain ⟨k1, v1⟩ := kv
        intro h
        by_cases hk : kk = k1
        · simp [alookup, hk] at h
          subst h
          simp
          omega
        · simp [alookup, hk] at h
          have := ih h
          simp
          omega
    exact Prod.Lex.left _ _ (hs _ m hl)
  · exact Prod.Lex.right _ (by simp)

/-- Tuple element loop of to_string: zip semantics, stopping at the shorter
of the two lists, rendering elements through to_string inside format!. -/
def to_string_tuple : List PrintableValue → List PrintableType → Option (List String)
  | [], _ => some []
  | _ :: _, [] => some []
  | v :: vs, t :: ts =>
      match to_string v t with
      | some (some s) => (to_string_tuple vs ts).map fun ss => s :: ss
      | _ => none
  termination_by vs _ => (sizeOf vs, 1)

end

/-- Display for PrintableValueDisplay::Plain (lines 311-317): the output
string when to_string returns Some, otherwise a format error (and a panic
stays a panic); both failures collapse to none here. -/
def display_plain (v : PrintableValue) (t : PrintableType) : Option String :=
  match to_string v t with
  | some (some s) => some s
  | _ => none

/-- The pairs of value and type shapes matched by a non-default arm of
to_string, in source order. -/
def covered : PrintableValue → PrintableType → Bool
  | .Field _, .Field => true
  | .Field _, .UnsignedInteger _ => true
  | .Field _, .SignedInteger _ => true
  | .Field _, .Boolean => true
  | .Field _, .Function _ _ => true
  | _, .MutableReference => true
  | .Vec _, .Array _ _ => true
  | .String _, .String _ => true
  | .Struct _, .Struct _ _ => true
  | .Vec _, .Tuple _ => true
  | _, _ => false

mutual

/-- Structural equality test on printable types, the equality of the derived
Rust PartialEq/Eq/Hash used by HashMap with PrintableType keys. -/
def ptEq : PrintableType → PrintableType → Bool
  | .Field, .Field => true
  | .Array l1 t1, .Array l2 t2 => l1 == l2 && ptEq t1 t2
  | .Tuple ts1, .Tuple ts2 => ptListEq ts1 ts2
  | .SignedInteger w1, .SignedInteger w2 => w1 == w2
  | .UnsignedInteger w1, .UnsignedInteger w2 => w1 == w2
  | .Boolean, .Boolean => true
  | .Struct n1 f1, .Struct n2 f2 => n1 == n2 && ptFieldsEq f1 f2
  | .String l1, .String l2 => l1 == l2
  | .FmtString, .FmtString => true
  | .Error, .Error => true
  | .Unit, .Unit => true
  | .Constant, .Constant => true
  | .TraitAsType, .TraitAsType => true
  | .TypeVariable, .TypeVariable => true
  | .NamedGeneric, .NamedGeneric => true
  | .Forall, .Forall => true
  | .Function n1 a1, .Function n2 a2 => n1 == n2 && ptFieldsEq a1 a2
  | .MutableReference, .MutableReference => true
  | .NotConstant, .NotConstant => true
  | _, _ => false
termination_by a _ => (sizeOf a, 0)

def ptListEq : List PrintableType → List PrintableType → Bool
  | [], [] => true
  | t1 :: ts1, t2 :: ts2 => ptEq t1 t2 && ptListEq ts1 ts2
  | _, _ => false
  termination_by ts _ => (sizeOf ts, 0)

def ptFieldsEq : List (String × PrintableType) → List (String × PrintableType) → Bool
  | [], [] => true
  | (n1, t1) :: fs1, (n2, t2) :: fs2 => n1 == n2 && ptEq t1 t2 && ptFieldsEq fs1 fs2
  | _, _ => false
  termination_by fs _ => (sizeOf fs, 0)

end

end NoirPrintable

namespace NoirDebugVars

open NoirPrintable

/-- HashMap lookup with u32 keys on an association list. -/
def nlookup {α : Type} (k : Nat) : List (Nat × α) → Option α
  | [] => none
  | (k1, v) :: rest => if k = k1 then some v else nlookup k rest

/-- HashMap insert with u32 keys: replaces an existing key in place and
appends a fresh key. -/
def ninsert {α : Type} (k : Nat) (v : α) : List (Nat × α) → List (Nat × α)
  | [] => [(k, v)]
  | (k1, v1) :: rest => if k = k1 then (k, v) :: rest else (k1, v1) :: ninsert k v rest

/-- HashMap remove with u32 keys. -/
def nremove {α : Type} (k : Nat) : List (Nat × α) → List (Nat × α)
  | [] => []
  | (k1, v1) :: rest => if k = k1 then rest else (k1, v1) :: nremove k rest

/-- In-place value replacement through a `get_mut` cursor on a map with
string keys: the first entry with the key receives the new value, everything
else is untouched. -/
def areplace {α : Type} (k : String) (v : α) : List (String × α) → List (String × α)
  | [] => []
  | (k1, v1) :: rest => if k = k1 then (k1, v) :: rest else (k1, v1) :: areplace k v rest

/-- DebugVars from tooling/nargo/src/artifacts/debug_vars.rs (lines 5-11).
The frame stack is a Vec whose LAST element is the top frame. -/
structure DebugVars where
  id_to_name : List (Nat × String)
  frames : List (Nat × List (Nat × PrintableValue))
  id_to_type : List (Nat × Nat)
  types : List (Nat × PrintableType)

/-- Apply a function to the last (top) frame, as `frames.last_mut()` does. -/
def update_last_frame (f : List (Nat × PrintableValue) → List (Nat × PrintableValue)) :
    List (Nat × List (Nat × PrintableValue)) → List (Nat × List (Nat × PrintableValue))
  | [] => []
  | [fr] => [(fr.1, f fr.2)]
  | fr :: rest => fr :: update_last_frame f rest

/-- DebugVars::insert_variables (lines 77-82): bulk registration of
var_id to (name, type_id) entries; the iteration order of the Rust HashMap
argument is the list order here. -/
def insert_variables (vars : List (Nat × String × Nat)) (st : DebugVars) : DebugVars :=
  vars.foldl
    (fun st e =>
      { st with
        id_to_name := ninsert e.1 e.2.1 st.id_to_name
        id_to_type := ninsert e.1 e.2.2 st.id_to_type })
    st

/-- DebugVars::insert_types (lines 84-88). -/
def insert_types (ts : List (Nat × PrintableType)) (st : DebugVars) : DebugVars :=
  ts.foldl (fun st e => { st with types := ninsert e.1 e.2 st.types }) st

/-- DebugVars::assign (lines 90-97): the two map lookups unwrap (a panic on
a missing var_id or type_id), the frame access expects a non-empty stack,
and the decoded value is stored in the top frame. none is a panic anywhere
on that path, including inside decode_value. -/
def assign (st : DebugVars) (var_id : Nat) (values : List F) : Option DebugVars :=
  match nlookup var_id st.id_to_type with
  | none => none
  | some type_id =>
    match nlookup type_id st.types with
    | none => none
    | some ptype =>
      match st.frames.getLast? with
      | none => none
      | some _ =>
        match decode_value values ptype with
        | none => none
        | some x =>
          some { st with frames := update_last_frame (ninsert var_id x.1) st.frames }

/-- The descent loop of DebugVars::assign_field (lines 116-157), written as
a recursive update: descend through the value along the index path, with
the bounds and shape checks of the source (each panic is none), and replace
the addressed sub-value by the decode of the new values at the sub-type. -/
def assign_path (v : PrintableValue) (t : PrintableType) (indexes : List Nat)
    (values : List F) : Option PrintableValue :=
  match indexes with
  | [] => (decode_value values t).map fun x => x.1
  | index :: rest =>
    match v, t with
    | .Vec array, .Array length typ =>
      match length with
      | some len =>
        if index < len then
          if len = array.length then
            match array[index]? with
            | none => none
            | some child =>
              (assign_path child typ rest values).map fun c => .Vec (array.set index c)
          else none
        else none
      | none =>
        match array[index]? with
        | none => none
        | some child =>
          (assign_path child typ rest values).map fun c => .Vec (array.set index c)
    | .Struct field_map, .Struct _ fields =>
      if index < fields.length then
        match fields[index]? with
        | none => none
        | some kt =>
          match alookup kt.1 field_map with
          | none => none
          | some child =>
            (assign_path child kt.2 rest values).map fun c =>
              .Struct (areplace kt.1 c field_map)
      else none
    | .Vec array, .Tuple types =>
      if index < types.length then
        if types.length = array.length then
          match types[index]?, array[index]? with
          | some typ, some child =>
            (assign_path child typ rest values).map fun c => .Vec (array.set index c)
          | _, _ => none
        else none
      else none
    | _, _ => none

/-- DebugVars::assign_field (lines 99-162): top frame access, cursor and
type lookups (panics on failure), then the path descent and write-back. -/
def assign_field (st : DebugVars) (var_id : Nat) (indexes : List Nat)
    (values : List F) : Option DebugVars :=
  match st.frames.getLast? with
  | none => none
  | some top =>
    match nlookup var_id top.2 with
    | none => none
    | some cursor =>
      match nlookup var_id st.id_to_type with
      | none => none
      | some tid =>
        match nlookup tid st.types with
        | none => none
        | some t =>
          (assign_path cursor t indexes values).map fun v1 =>
            { st with frames := update_last_frame (ninsert var_id v1) st.frames }

/-- DebugVars::push_fn (lines 169-171). -/
def push_fn (st : DebugVars) (fn_id : Nat) : DebugVars :=
  { st with frames := st.frames ++ [(fn_id, [])] }

/-- DebugVars::pop_fn (lines 173-175): Vec::pop, total, a no-op on an empty
stack. -/
def pop_fn (st : DebugVars) : DebugVars :=
  { st with frames := st.frames.dropLast }

/-- DebugVars::get (lines 177-181): expects a non-empty frame stack (outer
none is that panic) and returns the top-frame binding if any. -/
def get (st : DebugVars) (var_id : Nat) : Option (Option PrintableValue) :=
  (st.frames.getLast?).map fun top => nlookup var_id top.2

/-- DebugVars::drop (lines 187-189): expects a non-empty frame stack and
removes the binding from the top frame. -/
def drop_var (st : DebugVars) (var_id : Nat) : Option DebugVars :=
  (st.frames.getLast?).map fun _ =>
    { st with frames := update_last_frame (nremove var_id) st.frames }

/-- Observation of a sub-value: descend through a value and its type along
an index path using the same array, struct, and tuple addressing as
assign_field, without modifying anything. -/
def peek (v : PrintableValue) (t : PrintableType) :
    List Nat → Option (PrintableValue × PrintableType)
  | [] => some (v, t)
  | i :: rest =>
    match v, t with
    | .Vec array, .Array _ typ =>
      match array[i]? with
      | some child => peek child typ rest
      | none => none
    | .Struct m, .Struct _ fields =>
      match fields[i]? with
      | some kt =>
        match alookup kt.1 m with
        | some child => peek child kt.2 rest
        | none => none
      | none => none
    | .Vec array, .Tuple types =>
      match types[i]?, array[i]? with
      | some typ, some child => peek child typ rest
      | _, _ => none
    | _, _ => none

/-- Prefix test on index paths. -/
def isIndexPrefixOf : List Nat → List Nat → Bool
  | [], _ => true
  | _ :: _, [] => false
  | a :: p, b :: q => a == b && isIndexPrefixOf p q

/-- Boolean test that a list of string keys has no duplicates. -/
def keysNodup : List String → Bool
  | [] => true
  | k :: rest => !(rest.contains k) && keysNodup rest

mutual

/-- Well-formed printable type: every struct and function node along the
type has pairwise distinct field names. Noir source with duplicate struct
field names is rejected by the front end, so registered debug types satisfy
this. -/
def wf_type : PrintableType → Bool
  | .Array _ t => wf_type t
  | .Tuple ts => wf_type_list ts
  | .Struct _ fields => keysNodup (fields.map fun f => f.1) && wf_type_fields fields
  | .Function _ args => keysNodup (args.map fun f => f.1) && wf_type_fields args
  | _ => true
termination_by t => (sizeOf t, 0)

def wf_type_list : List PrintableType → Bool
  | [] => true
  | t :: ts => wf_type t && wf_type_list ts
  termination_by ts => (sizeOf ts, 0)

def wf_type_fields : List (String × PrintableType) → Bool
  | [] => true
  | (_, t) :: fs => wf_type t && wf_type_fields fs
  termination_by fs => (sizeOf fs, 0)

end

end NoirDebugVars

namespace NoirDebugTypes

open NoirPrintable
open NoirDebugVars (nlookup ninsert)

/-- Lookup in the HashMap with PrintableType keys, comparing keys with the
structural equality ptEq. -/
def tlookup (p : PrintableType) : List (PrintableType × Nat) → Option Nat
  | [] => none
  | (p1, v) :: rest => if ptEq p p1 then some v else tlookup p rest

/-- Insert into the HashMap with PrintableType keys. -/
def tinsert (p : PrintableType) (v : Nat) :
    List (PrintableType × Nat) → List (PrintableType × Nat)
  | [] => [(p, v)]
  | (p1, v1) :: rest =>
    if ptEq p p1 then (p, v) :: rest else (p1, v1) :: tinsert p v rest

/-- DebugTypes from monomorphization/debug_types.rs (lines 6-12). The Rust
field named variables is called vars here because variables is reserved in
Lean. -/
structure DebugTypes where
  vars : List (Nat × (String × Nat))
  types : List (PrintableType × Nat)
  id_to_type : List (Nat × PrintableType)
  next_type_id : Nat

/-- The empty store, Default::default(). -/
def DebugTypes.empty : DebugTypes :=
  { vars := [], types := [], id_to_type := [], next_type_id := 0 }

/-- DebugTypes::insert_var (lines 27-37). The Rust function receives a
front-end Type and converts it with resolve_type and From into a
PrintableType; that conversion lives outside the modelled sources, so the
model receives the already-converted printable type. A known type reuses
its interned id; a fresh type allocates next_type_id and registers both
directions. -/
def DebugTypes.insert_var (dt : DebugTypes) (var_id : Nat) (var_name : String)
    (ptype : PrintableType) : DebugTypes :=
  match tlookup ptype dt.types with
  | some type_id =>
    { dt with vars := ninsert var_id (var_name, type_id) dt.vars }
  | none =>
    let type_id := dt.next_type_id
    { dt with
      types := tinsert ptype type_id dt.types
      id_to_type := ninsert type_id ptype dt.id_to_type
      next_type_id := type_id + 1
      vars := ninsert var_id (var_name, type_id) dt.vars }

/-- DebugTypes::get_type (lines 39-41). -/
def DebugTypes.get_type (dt : DebugTypes) (var_id : Nat) : Option PrintableType :=
  match nlookup var_id dt.vars with
  | none => none
  | some nv => nlookup nv.2 dt.id_to_type

/-- A whole sequence of insert_var calls, leftmost first. -/
def applyInserts (dt : DebugTypes) : List (Nat × String × PrintableType) → DebugTypes
  | [] => dt
  | e :: rest => applyInserts (dt.insert_var e.1 e.2.1 e.2.2) rest

end NoirDebugTypes

namespace NoirDebuggerLoop

/-- The payload types carried by commands and results of the debugger
worker protocol (tooling/debugger/src/debug.rs). The engine internals are
outside this claim, so each payload is an abstract type. -/
structure APITypes where
  DebugLocation : Type
  Opcode : Type
  SourceLocation : Type
  WitnessMap : Type
  MemoryValue : Type
  DebugStackFrame : Type
  WitnessStack : Type
  FieldElement : Type
  Witness : Type
  BitSize : Type
  DebugCommandResult : Type

/-- DebugCommandAPI (debug.rs lines 38-66). -/
inductive DebugCommandAPI (T : APITypes) where
  | GetCurrentDebugLocation
  | GetOpcodes
  | GetOpcodesOfCircuit (circuit_id : Nat)
  | GetSourceLocationForDebugLocation (loc : T.DebugLocation)
  | GetCallStack
  | IsBreakpointSet (loc : T.DebugLocation)
  | IsValidDebugLocation (loc : T.DebugLocation)
  | AddBreakpoint (loc : T.DebugLocation)
  | DeleteBreakpoint (loc : T.DebugLocation)
  | GetWitnessMap
  | IsExecutingBrillig
  | GetBrilligMemory
  | WriteBrilligMemory (ptr : Nat) (value : T.FieldElement) (bit_size : T.BitSize)
  | OverwriteWitness (w : T.Witness) (value : T.FieldElement)
  | GetVariables
  | IsSolved
  | Restart
  | Finalize
  | FindOpcodeAtCurrentFileLine (line : Int)
  | StepAcirOpcode
  | StepIntoOpcode
  | NextInto
  | NextOver
  | NextOut
  | Cont

/-- DebugCommandAPIResult (debug.rs lines 22-36). -/
inductive DebugCommandAPIResult (T : APITypes) where
  | DebugCommandResult (r : T.DebugCommandResult)
  | DebugLocation (l : Option T.DebugLocation)
  | Opcodes (os : List T.Opcode)
  | Locations (ls : List T.SourceLocation)
  | DebugLocations (ls : List T.DebugLocation)
  | Bool (b : Bool)
  | WitnessMap (m : T.WitnessMap)
  | MemoryValue (v : Option (List T.MemoryValue))
  | Unit
  | Variables (vs : List T.DebugStackFrame)
  | WitnessStack (ws : T.WitnessStack)
  | Field (f : Option T.FieldElement)

/-- The interface of DebugContext used by the worker loop: one operation per
match arm of start_debugger, over an abstract context state C. Query
operations leave the context unchanged; stepping and mutation return the new
context. -/
structure ContextOps (T : APITypes) (C : Type) where
  get_current_debug_location : C → Option T.DebugLocation
  get_opcodes : C → List T.Opcode
  get_opcodes_of_circuit : C → Nat → List T.Opcode
  get_source_location_for_debug_location : C → T.DebugLocation → List T.SourceLocation
  get_call_stack : C → List T.DebugLocation
  is_breakpoint_set : C → T.DebugLocation → Bool
  is_valid_debug_location : C → T.DebugLocation → Bool
  add_breakpoint : C → T.DebugLocation → Bool × C
  delete_breakpoint : C → T.DebugLocation → Bool × C
  restart : C → C
  get_witness_map : C → T.WitnessMap
  is_executing_brillig : C → Bool
  get_brillig_memory : C → Option (List T.MemoryValue)
  write_brillig_memory : C → Nat → T.FieldElement → T.BitSize → C
  overwrite_witness : C → T.Witness → T.FieldElement → Option T.FieldElement × C
  get_variables : C → List T.DebugStackFrame
  is_solved : C → Bool
  step_acir_opcode : C → T.DebugCommandResult × C
  step_into_opcode : C → T.DebugCommandResult × C
  next_into : C → T.DebugCommandResult × C
  next_over : C → T.DebugCommandResult × C
  next_out : C → T.DebugCommandResult × C
  cont : C → T.DebugCommandResult × C
  find_opcode_at_current_file_line : C → Int → Option T.DebugLocation
  finalize : C → T.WitnessStack

/-- The result computation of one loop iteration of start_debugger
(the `let result = match received` of lines 92-176), for every command.
The Finalize arm of the source sends its result and breaks instead of
falling through; here it computes the same witness-stack result, and
start_debugger gives it its terminating behaviour. -/
def exec_command {T : APITypes} {C : Type} (ops : ContextOps T C) (ctx : C) :
    DebugCommandAPI T → DebugCommandAPIResult T × C
  | .GetCurrentDebugLocation =>
      (.DebugLocation (ops.get_current_debug_location ctx), ctx)
  | .GetOpcodes => (.Opcodes (ops.get_opcodes ctx), ctx)
  | .GetOpcodesOfCircuit circuit_id =>
      (.Opcodes (ops.get_opcodes_of_circuit ctx circuit_id), ctx)
  | .GetSourceLocationForDebugLocation loc =>
      (.Locations (ops.get_source_location_for_debug_location ctx loc), ctx)
  | .GetCallStack => (.DebugLocations (ops.get_call_stack ctx), ctx)
  | .IsBreakpointSet loc => (.Bool (ops.is_breakpoint_set ctx loc), ctx)
  | .IsValidDebugLocation loc => (.Bool (ops.is_valid_debug_location ctx loc), ctx)
  | .AddBreakpoint loc =>
      let x := ops.add_breakpoint ctx loc
      (.Bool x.1, x.2)
  | .DeleteBreakpoint loc =>
      let x := ops.delete_breakpoint ctx loc
      (.Bool x.1, x.2)
  | .Restart => (.Unit, ops.restart ctx)
  | .GetWitnessMap => (.WitnessMap (ops.get_witness_map ctx), ctx)
  | .IsExecutingBrillig => (.Bool (ops.is_executing_brillig ctx), ctx)
  | .GetBrilligMemory => (.MemoryValue (ops.get_brillig_memory ctx), ctx)
  | .WriteBrilligMemory ptr value bit_size =>
      (.Unit, ops.write_brillig_memory ctx ptr value bit_size)
  | .OverwriteWitness w value =>
      let x := ops.overwrite_witness ctx w value
      (.Field x.1, x.2)
  | .GetVariables => (.Variables (ops.get_variables ctx), ctx)
  | .IsSolved => (.Bool (ops.is_solved ctx), ctx)
  | .StepAcirOpcode =>
      let x := ops.step_acir_opcode ctx
      (.DebugCommandResult x.1, x.2)
  | .StepIntoOpcode =>
      let x := ops.step_into_opcode ctx
      (.DebugCommandResult x.1, x.2)
  | .NextInto =>
      let x := ops.next_into ctx
      (.DebugCommandResult x.1, x.2)
  | .NextOver =>
      let x := ops.next_over ctx
      (.DebugCommandResult x.1, x.2)
  | .NextOut =>
      let x := ops.next_out ctx
      (.DebugCommandResult x.1, x.2)
  | .Cont =>
      let x := ops.cont ctx
      (.DebugCommandResult x.1, x.2)
  | .FindOpcodeAtCurrentFileLine line =>
      (.DebugLocation (ops.find_opcode_at_current_file_line ctx line), ctx)
  | .Finalize => (.WitnessStack (ops.finalize ctx), ctx)

/-- Test for the Finalize command. -/
def isFinalize {T : APITypes} : DebugCommandAPI T → Bool
  | .Finalize => true
  | _ => false

/-- start_debugger (debug.rs lines 68-189) as a function from the sequence
of commands received on the command channel to the sequence of results sent
on the result channel. The empty list is a closed command channel (recv
fails and the loop breaks); Finalize sends its witness-stack result, drops
both endpoints and breaks, leaving every later command unprocessed. The
result receiver is assumed alive (a send never fails). -/
def start_debugger {T : APITypes} {C : Type} (ops : ContextOps T C) (ctx : C) :
    List (DebugCommandAPI T) → List (DebugCommandAPIResult T)
  | [] => []
  | cmd :: rest =>
    if isFinalize cmd then [(exec_command ops ctx cmd).1]
    else
      let x := exec_command ops ctx cmd
      x.1 :: start_debugger ops x.2 rest

/-- A trivial payload-type assignment, for concrete instantiations. -/
def trivAPI : APITypes :=
  { DebugLocation := Unit, Opcode := Unit, SourceLocation := Unit,
    WitnessMap := Unit, MemoryValue := Unit, DebugStackFrame := Unit,
    WitnessStack := Unit, FieldElement := Unit, Witness := Unit,
    BitSize := Unit, DebugCommandResult := Unit }

/-- A trivial engine over the unit context, for concrete instantiations. -/
def trivOps : ContextOps trivAPI Unit :=
  { get_current_debug_location := fun _ => none
    get_opcodes := fun _ => []
    get_opcodes_of_circuit := fun _ _ => []
    get_source_location_for_debug_location := fun _ _ => []
    get_call_stack := fun _ => []
    is_breakpoint_set := fun _ _ => false
    is_valid_debug_location := fun _ _ => false
    add_breakpoint := fun c _ => (false, c)
    delete_breakpoint := fun c _ => (false, c)
    restart := fun c => c
    get_witness_map := fun _ => ()
    is_executing_brillig := fun _ => false
    get_brillig_memory := fun _ => none
    write_brillig_memory := fun c _ _ _ => c
    overwrite_witness := fun c _ _ => (none, c)
    get_variables := fun _ => []
    is_solved := fun _ => false
    step_acir_opcode := fun c => ((), c)
    step_into_opcode := fun c => ((), c)
    next_into := fun c => ((), c)
    next_over := fun c => ((), c)
    next_out := fun c => ((), c)
    cont := fun c => ((), c)
    find_opcode_at_current_file_line := fun _ _ => none
    finalize := fun _ => () }

end NoirDebuggerLoop

namespace NoirInstr

open NoirPrintable (alookup)
open NoirDebugVars (ninsert)

/-- ast::Pattern, the parts used by the instrumenter. Spans are metadata and
are omitted throughout the AST model. -/
inductive Pattern where
  | Identifier (name : String)
  | Mutable (p : Pattern)
  | Tuple (ps : List Pattern)
  | Struct (name : String) (pids : List (String × Pattern))

mutual

/-- ast::Expression kinds touched or built by the instrumenter. Literals are
inlined (IntLit, StrLit, UnitLit, ArrayLit); expression kinds the walk
leaves alone and the pass never builds are represented by Other. Variable
holds the path segments. -/
inductive Expression where
  | IntLit (n : Nat)
  | StrLit (s : String)
  | UnitLit
  | ArrayLit (es : List Expression)
  | Block (stmts : List Statement)
  | Prefix (rhs : Expression)
  | Index (collection : Expression) (index : Expression)
  | Call (func : Expression) (args : List Expression)
  | MethodCall (object : Expression) (args : List Expression)
  | Constructor (fields : List (String × Expression))
  | MemberAccess (lhs : Expression) (fieldName : String)
  | Cast (lhs : Expression)
  | Infix (lhs : Expression) (rhs : Expression)
  | If (cond : Expression) (conseq : Expression) (alt : Option Expression)
  | Variable (segments : List String)
  | Tuple (exprs : List Expression)
  | Lambda (body : Expression)
  | Parenthesized (e : Expression)
  | Other

/-- ast::Statement kinds. The Let type annotation is metadata the pass sets
to unspecified and is omitted; For keeps its range expression, which the
walk does not enter. -/
inductive Statement where
  | Let (pat : Pattern) (expr : Expression)
  | Assign (lvalue : LValue) (expr : Expression)
  | Expr (e : Expression)
  | Semi (e : Expression)
  | For (ident : String) (range : Expression) (block : Expression)
  | Constrain (e : Expression)
  | Error

/-- ast::LValue. -/
inductive LValue where
  | Ident (name : String)
  | MemberAccess (object : LValue) (fieldName : String)
  | Index (array : LValue) (index : Expression)
  | Dereference (lv : LValue)

end

/-- ast::FunctionDefinition, the fields walk_fn uses: the parameter patterns
and the body statement list. -/
structure FunctionDefinition where
  name : String
  parameters : List Pattern
  body : List Statement

/-- parser::Item: a function item or anything else (left untouched). -/
inductive Item where
  | Function (f : FunctionDefinition)
  | OtherItem

/-- parser::ParsedModule. -/
structure ParsedModule where
  items : List Item

/-- DebugState (debug/mod.rs lines 11-17). The Rust field named variables is
called vars here because variables is reserved in Lean. The scope stack is a
Vec whose LAST element is the innermost scope. -/
structure DebugState where
  vars : List (Nat × String)
  next_var_id : Nat
  scope : List (List (String × Nat))
  enabled : Bool

/-- Replace the last element of a list by f of it; identity on []. Models
Vec::last_mut access. -/
def updateLast {α : Type} (f : α → α) : List α → List α
  | [] => []
  | [x] => [f x]
  | x :: rest => x :: updateLast f rest

/-- HashMap insert with String keys. -/
def sinsert {α : Type} (k : String) (v : α) : List (String × α) → List (String × α)
  | [] => [(k, v)]
  | (k1, v1) :: rest => if k = k1 then (k, v) :: rest else (k1, v1) :: sinsert k v rest

/-- DebugState::insert_var (lines 31-37): returns the current next_var_id,
increments it, records the name in the variables map and binds the name in
the innermost scope. The scope access is last_mut().unwrap(), a panic (none)
on an empty scope stack. -/
def insert_var (st : DebugState) (var_name : String) : Option (Nat × DebugState) :=
  match st.scope.getLast? with
  | none => none
  | some _ =>
    let var_id := st.next_var_id
    some (var_id,
      { st with
        next_var_id := var_id + 1
        vars := ninsert var_id var_name st.vars
        scope := updateLast (sinsert var_name var_id) st.scope })

/-- DebugState::lookup_var (lines 39-43): innermost scope first. -/
def lookup_var (st : DebugState) (var_name : String) : Option Nat :=
  st.scope.reverse.findSome? fun frame => alookup var_name frame

mutual

/-- Computable size of a pattern, for termination of the queue traversal. -/
def patSize : Pattern → Nat
  | .Identifier _ => 1
  | .Mutable p => 1 + patSize p
  | .Tuple ps => 1 + patsSize ps
  | .Struct _ pids => 1 + pidsSize pids
termination_by p => sizeOf p

def patsSize : List Pattern → Nat
  | [] => 0
  | p :: ps => patSize p + patsSize ps
  termination_by ps => sizeOf ps

def pidsSize : List (String × Pattern) → Nat
  | [] => 0
  | (_, p) :: ps => patSize p + pidsSize ps
  termination_by ps => sizeOf ps

end

/-- Total pattern size of a traversal queue. -/
def queueSize : List (Pattern × Bool) → Nat
  | [] => 0
  | (p, _) :: rest => patSize p + queueSize rest

/-- The queue loop of pattern_vars (lines 534-556): a breadth-first
traversal with a VecDeque, popping at the front and pushing children at the
back. A Struct node contributes its field-name identifiers directly as
variables and queues its sub-patterns. -/
def pattern_vars_go : List (Pattern × Bool) → List (String × Bool) → List (String × Bool)
  | [], vars => vars
  | (p, is_mut) :: rest, vars =>
    match p with
    | .Identifier id => pattern_vars_go rest (vars ++ [(id, is_mut)])
    | .Mutable p1 => pattern_vars_go (rest ++ [(p1, true)]) vars
    | .Tuple ps => pattern_vars_go (rest ++ ps.map fun q => (q, false)) vars
    | .Struct _ pids =>
        pattern_vars_go (rest ++ pids.map fun q => (q.2, is_mut))
          (vars ++ pids.map fun q => (q.1, false))
termination_by q _ => queueSize q
decreasing_by
  · simp only [queueSize, patSize]
    omega
  · have happ : ∀ a b : List (Pattern × Bool),
        queueSize (a ++ b) = queueSize a + queueSize b := by
      intro a b
      induction a with
      | nil => simp [queueSize]
      | cons x r2 ih =>
        cases x
        simp only [List.cons_append, queueSize, List.append_eq] at *
        omega
    simp only [queueSize, happ, patSize]
    omega
  · have happ : ∀ a b : List (Pattern × Bool),
        queueSize (a ++ b) = queueSize a + queueSize b := by
      intro a b
      induction a with
      | nil => simp [queueSize]
      | cons x r2 ih =>
        cases x
        simp only [List.cons_append, queueSize, List.append_eq] at *
        omega
    have htup : queueSize (ps.map fun q => (q, false)) = patsSize ps := by
      induction ps with
      | nil => simp [queueSize, patsSize]
      | cons q r2 ih => simp only [List.map_cons, queueSize, patsSize, ih]
    simp only [queueSize, happ, htup, patSize]
    omega
  · have happ : ∀ a b : List (Pattern × Bool),
        queueSize (a ++ b) = queueSize a + queueSize b := by
      intro a b
      induction a with
      | nil => simp [queueSize]
      | cons x r2 ih =>
        cases x
        simp only [List.cons_append, queueSize, List.append_eq] at *
        omega
    have hst : queueSize (pids.map fun q => (q.2, is_mut)) = pidsSize pids := by
      induction pids with
      | nil => simp [queueSize, pidsSize]
      | cons q r2 ih =>
        cases q
        simp only [List.map_cons, queueSize, pidsSize, ih]
    simp only [queueSize, happ, hst, patSize]
    omega

/-- pattern_vars (lines 534-556). -/
def pattern_vars (pattern : Pattern) : List (String × Bool) :=
  pattern_vars_go [(pattern, false)] []

/-- id_expr (lines 562-570). -/
def id_expr (id : String) : Expression := .Variable [id]

/-- int_expr (lines 572-577). -/
def int_expr (x : Nat) : Expression := .IntLit x

/-- UTF-8 bytes of a string, as name.as_bytes(). -/
def stringBytes (s : String) : List Nat :=
  s.toUTF8.toList.map fun b => b.toNat

/-- vec_from_slice (lines 595-609). -/
def vec_from_slice (slice_expr : Expression) : Expression :=
  .Call (.Variable ["__debug_Vec", "from_slice"]) [slice_expr]

/-- byte_array_expr (lines 586-593). -/
def byte_array_expr (bytes : List Nat) : Expression :=
  vec_from_slice (.ArrayLit (bytes.map int_expr))

/-- DebugState::wrap_assign_var (lines 148-166): the oracle call statement
__debug_var_assign(var_id, expr). -/
def wrap_assign_var (var_id : Nat) (expr : Expression) : Statement :=
  .Semi (.Call (.Variable ["__debug_var_assign"]) [int_expr var_id, expr])

/-- DebugState::wrap_drop_var (lines 168-183). -/
def wrap_drop_var (var_id : Nat) : Statement :=
  .Semi (.Call (.Variable ["__debug_var_drop"]) [int_expr var_id])

/-- DebugState::wrap_assign_member (lines 185-231). -/
def wrap_assign_member (var_id : Nat) (indexes : List Expression)
    (fields : List (Nat × String)) (expr : Expression) : Statement :=
  .Semi (.Call (.Variable ["__debug_member_assign_placeholder"])
    [int_expr var_id,
     vec_from_slice (.ArrayLit indexes),
     vec_from_slice (.ArrayLit (fields.map fun f =>
       .Tuple [int_expr f.1, byte_array_expr (stringBytes f.2)])),
     expr])

/-- The lvalue loop of wrap_assign_statement (lines 327-351): walks from the
full lvalue toward the base identifier, collecting index expressions and,
for member accesses, a placeholder zero index plus the field name. none is
the panic of a failing variable lookup or the unimplemented dereference. -/
def lvalue_path (st : DebugState) :
    LValue → List Expression → List (Nat × String) →
    Option (Nat × List Expression × List (Nat × String))
  | .Ident name, indexes, fields =>
      (lookup_var st name).map fun id => (id, indexes, fields)
  | .MemberAccess object fname, indexes, fields =>
      lvalue_path st object (indexes ++ [int_expr 0])
        (fields ++ [(indexes.length, fname)])
  | .Index array index, indexes, fields =>
      lvalue_path st array (indexes ++ [index]) fields
  | .Dereference _, _, _ => none

/-- DebugState::wrap_assign_statement (lines 295-371): X = Y becomes
X = { let __debug_expr = Y; oracle call; __debug_expr }. The state is only
read (lookup_var); none is a failed lookup or a dereference lvalue. -/
def wrap_assign_statement (st : DebugState) (lvalue : LValue) (expr : Expression) :
    Option Statement :=
  let let_stmt := Statement.Let (.Identifier "__debug_expr") expr
  let ret_stmt := Statement.Expr (id_expr "__debug_expr")
  match lvalue with
  | .Ident id =>
      (lookup_var st id).map fun var_id =>
        .Assign lvalue (.Block
          [let_stmt, wrap_assign_var var_id (id_expr "__debug_expr"), ret_stmt])
  | .Dereference _ => none
  | _ =>
      (lvalue_path st lvalue [] []).map fun x =>
        .Assign lvalue (.Block
          [let_stmt, wrap_assign_member x.1 x.2.1 x.2.2 (id_expr "__debug_expr"),
           ret_stmt])

/-- The per-variable loop of wrap_let_statement (lines 270-273): allocate a
fresh var_id for each bound identifier and emit its __debug_var_assign
statement. -/
def assign_var_stmts (st : DebugState) :
    List (String × Bool) → Option (DebugState × List Statement)
  | [] => some (st, [])
  | (name, _) :: rest =>
    match insert_var st name with
    | none => none
    | some x =>
      (assign_var_stmts x.2 rest).map fun y =>
        (y.1, wrap_assign_var x.1 (id_expr name) :: y.2)

/-- DebugState::wrap_let_statement (lines 233-293): rewrites
let P = E into let (x1, ..., xn) = { let P = E; wraps; (x1, ..., xn) }. -/
def wrap_let_statement (st : DebugState) (pat : Pattern) (expr : Expression) :
    Option (DebugState × Statement) :=
  let vars := pattern_vars pat
  let vars_pattern : List Pattern := vars.map fun v =>
    if v.2 then .Mutable (.Identifier v.1) else .Identifier v.1
  let vars_exprs : List Expression := vars.map fun v => id_expr v.1
  (assign_var_stmts st vars).map fun x =>
    (x.1, .Let (.Tuple vars_pattern)
      (.Block ([Statement.Let pat expr] ++ x.2 ++ [.Expr (.Tuple vars_exprs)])))

/-- Registration of one parameter pattern: a fresh var_id per variable of
pattern_vars, keeping order, as the inner map of walk_fn (lines 51-55). -/
def insert_pattern_vars (st : DebugState) :
    List (String × Bool) → Option (DebugState × List (Nat × String))
  | [] => some (st, [])
  | (name, _) :: vs =>
    match insert_var st name with
    | none => none
    | some x => (insert_pattern_vars x.2 vs).map fun y => (y.1, (x.1, name) :: y.2)

/-- The parameter registration of walk_fn (lines 48-62): pattern_vars over
each parameter pattern, a fresh var_id per variable, keeping name order. -/
def param_vars (st : DebugState) :
    List Pattern → Option (DebugState × List (Nat × String))
  | [] => some (st, [])
  | pat :: rest =>
      match insert_pattern_vars st (pattern_vars pat) with
      | none => none
      | some x => (param_vars x.1 rest).map fun y => (y.1, x.2 ++ y.2)

/-- The scope-exit rearrangement of walk_scope (lines 75-130), applied to
the already-walked statement list with the variables of the popped scope:
copy the body minus the return statement, bind a trailing expression to
__debug_expr (a non-expression return statement is kept as is), emit one
__debug_var_drop per scope variable, and finish with __debug_expr (or a
unit literal when the return statement was not an expression). -/
def walk_scope_exit (popped : List (String × Nat)) (stmts : List Statement) :
    List Statement :=
  let ret_stmt := stmts.getLast?.getD (.Expr .UnitLit)
  let fn_body := stmts.dropLast
  let ret_bind : Statement :=
    match ret_stmt with
    | .Expr ret_expr => .Let (.Identifier "__debug_expr") ret_expr
    | s => s
  let ret_out : Statement :=
    match ret_stmt with
    | .Expr _ => .Expr (.Variable ["__debug_expr"])
    | _ => .Expr .UnitLit
  let drops := popped.map fun v => wrap_drop_var v.2
  fn_body ++ [ret_bind] ++ drops ++ [ret_out]

mutual

/-- DebugState::walk_expr (lines 373-435). A Block pushes a scope level and
walks its statements through walk_scope (which consumes the level);
composite expressions are walked structurally; everything else is left
untouched. -/
def walk_expr (st : DebugState) : Expression → Option (DebugState × Expression)
  | .Block stmts =>
      (walk_scope { st with scope := st.scope ++ [[]] } stmts).map fun x =>
        (x.1, .Block x.2)
  | .Prefix rhs => (walk_expr st rhs).map fun x => (x.1, .Prefix x.2)
  | .Index collection index =>
      match walk_expr st collection with
      | none => none
      | some x =>
        (walk_expr x.1 index).map fun y => (y.1, .Index x.2 y.2)
  | .Call func args =>
      match walk_expr st func with
      | none => none
      | some x =>
        (walk_expr_list x.1 args).map fun y => (y.1, .Call x.2 y.2)
  | .MethodCall object args =>
      match walk_expr st object with
      | none => none
      | some x =>
        (walk_expr_list x.1 args).map fun y => (y.1, .MethodCall x.2 y.2)
  | .Constructor fields =>
      (walk_named_exprs st fields).map fun x => (x.1, .Constructor x.2)
  | .MemberAccess lhs fieldName =>
      (walk_expr st lhs).map fun x => (x.1, .MemberAccess x.2 fieldName)
  | .Cast lhs => (walk_expr st lhs).map fun x => (x.1, .Cast x.2)
  | .Infix lhs rhs =>
      match walk_expr st lhs with
      | none => none
      | some x =>
        (walk_expr x.1 rhs).map fun y => (y.1, .Infix x.2 y.2)
  | .If cond conseq none =>
      match walk_expr st cond with
      | none => none
      | some x =>
        (walk_expr x.1 conseq).map fun y => (y.1, .If x.2 y.2 none)
  | .If cond conseq (some a) =>
      match walk_expr st cond with
      | none => none
      | some x =>
        match walk_expr x.1 conseq with
        | none => none
        | some y =>
          (walk_expr y.1 a).map fun z => (z.1, .If x.2 y.2 (some z.2))
  | .Tuple exprs => (walk_expr_list st exprs).map fun x => (x.1, .Tuple x.2)
  | .Lambda body => (walk_expr st body).map fun x => (x.1, .Lambda x.2)
  | .Parenthesized e => (walk_expr st e).map fun x => (x.1, .Parenthesized x.2)
  | e => some (st, e)
termination_by e => (sizeOf e, 0)

/-- The iter_mut().for_each walk over an expression list. -/
def walk_expr_list (st : DebugState) :
    List Expression → Option (DebugState × List Expression)
  | [] => some (st, [])
  | e :: es =>
    match walk_expr st e with
    | none => none
    | some x => (walk_expr_list x.1 es).map fun y => (y.1, x.2 :: y.2)
  termination_by es => (sizeOf es, 0)

/-- The constructor-field walk of walk_expr (lines 400-404). -/
def walk_named_exprs (st : DebugState) :
    List (String × Expression) → Option (DebugState × List (String × Expression))
  | [] => some (st, [])
  | (n, e) :: es =>
    match walk_expr st e with
    | none => none
    | some x => (walk_named_exprs x.1 es).map fun y => (y.1, (n, x.2) :: y.2)
  termination_by es => (sizeOf es, 0)

/-- DebugState::walk_statement (lines 458-477). -/
def walk_statement (st : DebugState) : Statement → Option (DebugState × Statement)
  | .Let pat expr => wrap_let_statement st pat expr
  | .Assign lvalue expr =>
      (wrap_assign_statement st lvalue expr).map fun s => (st, s)
  | .Expr e => (walk_expr st e).map fun x => (x.1, .Expr x.2)
  | .Semi e => (walk_expr st e).map fun x => (x.1, .Semi x.2)
  | .For ident range block => walk_for st ident range block
  | s => some (st, s)
  termination_by s => (sizeOf s, 1)

/-- DebugState::walk_for (lines 437-456): allocate the induction variable,
walk the body, and wrap it with a __debug_var_assign at entry and a
__debug_var_drop at exit. -/
def walk_for (st : DebugState) (ident : String) (range : Expression)
    (block : Expression) : Option (DebugState × Statement) :=
  match insert_var st ident with
  | none => none
  | some x =>
    let set_stmt := wrap_assign_var x.1 (id_expr ident)
    let drop_stmt := wrap_drop_var x.1
    (walk_expr x.2 block).map fun y =>
      (y.1, .For ident range (.Block [set_stmt, .Semi y.2, drop_stmt]))
  termination_by (sizeOf block, 5)

/-- The per-statement pass of walk_scope (line 73). -/
def walk_stmts_each (st : DebugState) :
    List Statement → Option (DebugState × List Statement)
  | [] => some (st, [])
  | s :: ss =>
    match walk_statement st s with
    | none => none
    | some x => (walk_stmts_each x.1 ss).map fun y => (y.1, x.2 :: y.2)
  termination_by ss => (sizeOf ss, 2)

/-- DebugState::walk_scope (lines 72-131): walk every statement, pop the
current scope level, and rearrange the tail with walk_scope_exit. -/
def walk_scope (st : DebugState) :
    List Statement → Option (DebugState × List Statement)
  | stmts =>
    match walk_stmts_each st stmts with
    | none => none
    | some x =>
      let popped := x.1.scope.getLast?.getD []
      let st2 := { x.1 with scope := x.1.scope.dropLast }
      some (st2, walk_scope_exit popped x.2)
  termination_by stmts => (sizeOf stmts, 3)

end

/-- DebugState::walk_fn (lines 45-68): push a scope level, register the
parameters, walk the body as a scope, and prepend the parameter
__debug_var_assign statements. -/
def walk_fn (st : DebugState) (f : FunctionDefinition) :
    Option (DebugState × FunctionDefinition) :=
  match param_vars { st with scope := st.scope ++ [[]] } f.parameters with
  | none => none
  | some x =>
    let set_fn_params := x.2.map fun v => wrap_assign_var v.1 (id_expr v.2)
    (walk_scope x.1 f.body).map fun y =>
      (y.1, { f with body := set_fn_params ++ y.2 })

/-- The item loop of insert_symbols (lines 137-142). -/
def walk_items (st : DebugState) : List Item → Option (DebugState × List Item)
  | [] => some (st, [])
  | .Function f :: items =>
    match walk_fn st f with
    | none => none
    | some x =>
      (walk_items x.1 items).map fun y => (y.1, .Function x.2 :: y.2)
  | it :: items =>
      (walk_items st items).map fun y => (y.1, it :: y.2)

/-- A function item of the oracle appendix. -/
def oracleFn (name : String) (params : List String) (body : List Statement) : Item :=
  .Function { name := name, parameters := params.map Pattern.Identifier, body := body }

/-- The items of the oracle program that insert_state_set_oracle (lines
479-531) parses and appends: for each oracle, an externally tagged oracle
function, an unconstrained inner wrapper and a public entry point, plus the
member-assign placeholder and the Vec import (a non-function item). -/
def oracle_items : List Item :=
  [ oracleFn "__debug_var_assign_oracle" ["_var_id", "_value"] [],
    oracleFn "__debug_var_assign_inner" ["var_id", "value"]
      [.Semi (.Call (.Variable ["__debug_var_assign_oracle"])
        [id_expr "var_id", id_expr "value"])],
    oracleFn "__debug_var_assign" ["var_id", "value"]
      [.Semi (.Call (.Variable ["__debug_var_assign_inner"])
        [id_expr "var_id", id_expr "value"])],
    oracleFn "__debug_var_drop_oracle" ["_var_id"] [],
    oracleFn "__debug_var_drop_inner" ["var_id"]
      [.Semi (.Call (.Variable ["__debug_var_drop_oracle"]) [id_expr "var_id"])],
    oracleFn "__debug_var_drop" ["var_id"]
      [.Semi (.Call (.Variable ["__debug_var_drop_inner"]) [id_expr "var_id"])],
    .OtherItem,
    oracleFn "__debug_member_assign_oracle" ["_var_id", "_indexes", "_value"] [],
    oracleFn "__debug_member_assign_inner" ["var_id", "indexes", "value"]
      [.Semi (.Call (.Variable ["__debug_member_assign_oracle"])
        [id_expr "var_id", id_expr "indexes", id_expr "value"])],
    oracleFn "__debug_member_assign" ["var_id", "indexes", "value"]
      [.Semi (.Call (.Variable ["__debug_member_assign_inner"])
        [id_expr "var_id", id_expr "indexes", id_expr "value"])],
    oracleFn "__debug_member_assign_placeholder"
      ["_var_id", "_indexes", "_field_names", "_value"] [],
    oracleFn "__debug_dereference_assign_oracle" ["_var_id", "_value"] [],
    oracleFn "__debug_dereference_assign_inner" ["var_id", "value"]
      [.Semi (.Call (.Variable ["__debug_dereference_assign_oracle"])
        [id_expr "var_id", id_expr "value"])],
    oracleFn "__debug_dereference_assign" ["var_id", "value"]
      [.Semi (.Call (.Variable ["__debug_dereference_assign_inner"])
        [id_expr "var_id", id_expr "value"])] ]

/-- DebugState::insert_symbols (lines 133-146): nothing when disabled,
otherwise walk every function item and then append the oracle items, after
the traversal so the oracles themselves are not instrumented. -/
def insert_symbols (st : DebugState) (module : ParsedModule) :
    Option (DebugState × ParsedModule) :=
  if !st.enabled then some (st, module)
  else
    match walk_items st module.items with
    | none => none
    | some x => some (x.1, { items := x.2 ++ oracle_items })

/-- Values of the small dynamic semantics used to compare an instrumented
statement list with its original. Calls and other opaque computations
evaluate to vOpaque. -/
inductive DVal where
  | vUnit
  | vInt (n : Nat)
  | vStr (s : String)
  | vTuple (vs : List DVal)
  | vArray (vs : List DVal)
  | vOpaque

/-- Environments of the small semantics: innermost binding first. -/
abbrev Env := List (String × DVal)

mutual

/-- Bind the variables of a pattern in the environment. Tuples destructure a
matching tuple value positionally; other shapes bind their variables to
vOpaque. A deterministic total semantics suffices here. -/
def bindPat : Pattern → DVal → Env → Env
  | .Identifier name, v, env => (name, v) :: env
  | .Mutable p, v, env => bindPat p v env
  | .Tuple ps, .vTuple vs, env => bindPatList ps vs env
  | .Tuple ps, _, env => bindPatList ps [] env
  | .Struct _ pids, _, env => bindPidList pids env
termination_by p _ _ => (patSize p, 0)
decreasing_by
  all_goals
    simp only [patSize, patsSize, pidsSize]
    rw [Prod.lex_iff]
    simp
    try omega
    try (cases p <;> simp [patSize] <;> omega)

/-- Positional binding of a pattern list against a value list. -/
def bindPatList : List Pattern → List DVal → Env → Env
  | [], _, env => env
  | p :: ps, [], env => bindPatList ps [] (bindPat p .vOpaque env)
  | p :: ps, v :: vs, env => bindPatList ps vs (bindPat p v env)
  termination_by ps _ _ => (patsSize ps, 1)
  decreasing_by
  all_goals
    simp only [patSize, patsSize, pidsSize]
    rw [Prod.lex_iff]
    simp
    try omega
    try (cases p <;> simp [patSize] <;> omega)

/-- Binding of struct sub-patterns, each against vOpaque. -/
def bindPidList : List (String × Pattern) → Env → Env
  | [], env => env
  | (_, p) :: pids, env => bindPidList pids (bindPat p .vOpaque env)
  termination_by pids _ => (pidsSize pids, 1)
  decreasing_by
  all_goals
    simp only [patSize, patsSize, pidsSize]
    rw [Prod.lex_iff]
    simp
    try omega
    try (cases p <;> simp [patSize] <;> omega)

end

/-- Assignment to an lvalue: identifier assignments update the innermost
binding; deeper lvalue writes are not modelled (the equivalence claims never
look at them). -/
def assignLv (lv : LValue) (v : DVal) (env : Env) : Env :=
  match lv with
  | .Ident name =>
      env.map fun b => if b.1 = name then (b.1, v) else b
  | _ => env

mutual

/-- Evaluation of an expression: the value and the updated environment.
Blocks restore the outer environment on exit; calls, method calls and other
computations on evaluated sub-expressions produce vOpaque. -/
def evalExpr (env : Env) : Expression → DVal × Env
  | .IntLit n => (.vInt n, env)
  | .StrLit s => (.vStr s, env)
  | .UnitLit => (.vUnit, env)
  | .ArrayLit es =>
      let x := evalExprList env es
      (.vArray x.1, x.2)
  | .Block stmts =>
      let x := evalStmts env stmts
      (x.1, env)
  | .Prefix rhs =>
      let x := evalExpr env rhs
      (.vOpaque, x.2)
  | .Index collection index =>
      let x := evalExpr env collection
      let y := evalExpr x.2 index
      (.vOpaque, y.2)
  | .Call func args =>
      let x := evalExpr env func
      let y := evalExprList x.2 args
      (.vOpaque, y.2)
  | .MethodCall object args =>
      let x := evalExpr env object
      let y := evalExprList x.2 args
      (.vOpaque, y.2)
  | .Constructor fields =>
      let x := evalNamedExprs env fields
      (.vOpaque, x.2)
  | .MemberAccess lhs _ =>
      let x := evalExpr env lhs
      (.vOpaque, x.2)
  | .Cast lhs =>
      let x := evalExpr env lhs
      (.vOpaque, x.2)
  | .Infix lhs rhs =>
      let x := evalExpr env lhs
      let y := evalExpr x.2 rhs
      (.vOpaque, y.2)
  | .If cond conseq alt =>
      let x := evalExpr env cond
      match x.1 with
      | .vInt 0 =>
        match alt with
        | none => (.vUnit, x.2)
        | some a => evalExpr x.2 a
      | _ => evalExpr x.2 conseq
  | .Variable segments =>
      match segments with
      | [name] =>
        match alookup name env with
        | some v => (v, env)
        | none => (.vOpaque, env)
      | _ => (.vOpaque, env)
  | .Tuple exprs =>
      let x := evalExprList env exprs
      (.vTuple x.1, x.2)
  | .Lambda _ => (.vOpaque, env)
  | .Parenthesized e => evalExpr env e
  | .Other => (.vOpaque, env)
termination_by e => (sizeOf e, 0)

def evalExprList (env : Env) : List Expression → List DVal × Env
  | [] => ([], env)
  | e :: es =>
      let x := evalExpr env e
      let y := evalExprList x.2 es
      (x.1 :: y.1, y.2)
  termination_by es => (sizeOf es, 0)

def evalNamedExprs (env : Env) : List (String × Expression) → List DVal × Env
  | [] => ([], env)
  | (_, e) :: es =>
      let x := evalExpr env e
      let y := evalNamedExprs x.2 es
      (x.1 :: y.1, y.2)
  termination_by es => (sizeOf es, 0)

/-- Evaluation of one statement: its value (unit except for a trailing
expression statement) and the updated environment. -/
def evalStmt (env : Env) : Statement → DVal × Env
  | .Let pat expr =>
      let x := evalExpr env expr
      (.vUnit, bindPat pat x.1 x.2)
  | .Assign lvalue expr =>
      let x := evalExpr env expr
      (.vUnit, assignLv lvalue x.1 x.2)
  | .Expr e => evalExpr env e
  | .Semi e =>
      let x := evalExpr env e
      (.vUnit, x.2)
  | .For ident range block =>
      let x := evalExpr env range
      let n := match x.1 with
        | .vInt n => n
        | _ => 0
      (.vUnit, evalForLoop x.2 ident block n)
  | .Constrain e =>
      let x := evalExpr env e
      (.vUnit, x.2)
  | .Error => (.vUnit, env)
  termination_by s => (sizeOf s, 1)

/-- Loop evaluation: n iterations of the body with the induction variable
bound. -/
def evalForLoop (env : Env) (ident : String) (block : Expression) :
    Nat → Env
  | 0 => env
  | n + 1 =>
      let x := evalExpr ((ident, .vInt n) :: env) block
      evalForLoop x.2 ident block n
  termination_by n => (sizeOf block, n + 2)

/-- Evaluation of a statement list: the value of the last statement (unit
for an empty list) and the environment after all of them. -/
def evalStmts (env : Env) : List Statement → DVal × Env
  | [] => (.vUnit, env)
  | [s] => evalStmt env s
  | s :: ss =>
      let x := evalStmt env s
      evalStmts x.2 ss
  termination_by ss => (sizeOf ss, 2)

end

/-- Lookup in the variables map of a DebugState. -/
def vlookup (st : DebugState) (id : Nat) : Option String :=
  NoirDebugVars.nlookup id st.vars

/-- Relation between an instrumenter state and a later one along a walk:
the id counter does not decrease, bindings of already used ids are
unchanged, and ids at or above the new counter are untouched (so every new
binding sits in the half-open id range the walk consumed). -/
def Evolves (st st1 : DebugState) : Prop :=
  st.next_var_id ≤ st1.next_var_id ∧
  (∀ id, id < st.next_var_id → vlookup st1 id = vlookup st id) ∧
  (∀ id, st1.next_var_id ≤ id → vlookup st1 id = vlookup st id)

/-- Every bound variable id is below the allocation counter. -/
def VarsBounded (st : DebugState) : Prop :=
  ∀ id n, vlookup st id = some n → id < st.next_var_id

end NoirInstr

/-
Theorems. Each claim of the specification gets one theorem (with witness or
counterexample theorems where required), preceded by helper lemmas.
-/

namespace NoirDebugVars

open NoirPrintable

theorem nlookup_ninsert_self {α : Type} (k : Nat) (v : α) (m : List (Nat × α))
    (h : nlookup k m = some v) : ninsert k v m = m := by
  induction m with
  | nil => simp [nlookup] at h
  | cons kv rest ih =>
    obtain ⟨k1, v1⟩ := kv
    by_cases hk : k = k1
    · simp [nlookup, hk] at h
      subst h
      simp [ninsert, hk]
    · simp [nlookup, hk] at h
      simp [ninsert, hk, ih h]

theorem nlookup_ninsert_same {α : Type} (k : Nat) (v : α) (m : List (Nat × α)) :
    nlookup k (ninsert k v m) = some v := by
  induction m with
  | nil => simp [ninsert, nlookup]
  | cons kv rest ih =>
    obtain ⟨k1, v1⟩ := kv
    by_cases hk : k = k1
    · simp [ninsert, hk, nlookup]
    · simp [ninsert, hk, nlookup, ih]

theorem nlookup_ninsert_ne {α : Type} (k k1 : Nat) (v : α) (m : List (Nat × α))
    (h : k ≠ k1) : nlookup k (ninsert k1 v m) = nlookup k m := by
  induction m with
  | nil => simp [ninsert, nlookup, h]
  | cons kv rest ih =>
    obtain ⟨k2, v2⟩ := kv
    by_cases hk : k1 = k2
    · subst hk
      simp [ninsert, nlookup, h]
    · by_cases hk2 : k = k2
      · simp [ninsert, hk, nlookup, hk2]
      · simp [ninsert, hk, nlookup, hk2, ih]

/-- C9: pop_fn is total: on a store with an empty frame stack it does not
panic and leaves the store unchanged, while assign, assign_field, drop and
get all panic (modelled as none) on the empty frame stack. -/
theorem c9_pop_fn_total (st : DebugVars) (h : st.frames = []) :
    pop_fn st = st ∧
    (∀ var_id values, assign st var_id values = none) ∧
    (∀ var_id indexes values, assign_field st var_id indexes values = none) ∧
    (∀ var_id, drop_var st var_id = none) ∧
    (∀ var_id, get st var_id = none) := by
  refine ⟨?_, ?_, ?_, ?_, ?_⟩
  · cases st
    simp_all [pop_fn]
  · intro var_id values
    unfold assign
    cases hx : nlookup var_id st.id_to_type with
    | none => rfl
    | some tid =>
      cases hy : nlookup tid st.types with
      | none => simp [hy]
      | some pt => simp [hy, h]
  · intro var_id indexes values
    unfold assign_field
    rw [h]
    rfl
  · intro var_id
    unfold drop_var
    rw [h]
    rfl
  · intro var_id
    unfold get
    rw [h]
    rfl

/-- C9 witness: the conclusions at the empty store. -/
theorem c9_pop_fn_total_witness :
    pop_fn { id_to_name := [], frames := [], id_to_type := [], types := [] } =
      { id_to_name := [], frames := [], id_to_type := [], types := [] } ∧
    assign { id_to_name := [], frames := [], id_to_type := [], types := [] } 0 [] = none ∧
    get { id_to_name := [], frames := [], id_to_type := [], types := [] } 0 = none := by
  have h := c9_pop_fn_total
    { id_to_name := [], frames := [], id_to_type := [], types := [] } rfl
  exact ⟨h.1, h.2.1 0 [], h.2.2.2.2 0⟩

/-- C4: assign panics (none) when the var_id is not registered in
id_to_type, and when its type_id is not registered in types; conversely,
with a registered type, a non-empty frame stack and a decodable value
stream, assign stores the decoded value in the top frame, so the lookups do
not panic. -/
theorem c4_assign_lookup_policy (st : DebugVars) (var_id : Nat) (values : List F) :
    (nlookup var_id st.id_to_type = none → assign st var_id values = none) ∧
    (∀ tid, nlookup var_id st.id_to_type = some tid →
      nlookup tid st.types = none → assign st var_id values = none) ∧
    (∀ tid ptype top x,
      nlookup var_id st.id_to_type = some tid →
      nlookup tid st.types = some ptype →
      st.frames.getLast? = some top →
      decode_value values ptype = some x →
      assign st var_id values =
        some { st with frames := update_last_frame (ninsert var_id x.1) st.frames }) := by
  refine ⟨?_, ?_, ?_⟩
  · intro h
    unfold assign
    rw [h]
  · intro tid h1 h2
    unfold assign
    simp [h1, h2]
  · intro tid ptype top x h1 h2 h3 h4
    unfold assign
    simp [h1, h2, h3, h4]

/-- C4 witness: a store with var 7 of type id 1 (Field) and one frame.
Assigning var 7 succeeds and stores the decoded field; assigning the
unregistered var 9 panics. -/
theorem c4_assign_lookup_policy_witness :
    assign { id_to_name := [(7, "x")], frames := [(0, [])],
             id_to_type := [(7, 1)], types := [(1, .Field)] } 7 [5] =
      some { id_to_name := [(7, "x")], frames := [(0, [(7, .Field 5)])],
             id_to_type := [(7, 1)], types := [(1, .Field)] } ∧
    assign { id_to_name := [(7, "x")], frames := [(0, [])],
             id_to_type := [(7, 1)], types := [(1, .Field)] } 9 [5] = none := by
  constructor
  · have h := (c4_assign_lookup_policy
      { id_to_name := [(7, "x")], frames := [(0, [])],
        id_to_type := [(7, 1)], types := [(1, .Field)] } 7 [5]).2.2
      1 PrintableType.Field (0, []) (.Field 5, []) rfl rfl rfl (by simp [decode_value])
    simpa [update_last_frame, ninsert] using h
  · exact (c4_assign_lookup_policy
      { id_to_name := [(7, "x")], frames := [(0, [])],
        id_to_type := [(7, 1)], types := [(1, .Field)] } 9 [5]).1 rfl

end NoirDebugVars

namespace NoirDebugVars

open NoirPrintable

theorem insert_variables_cons (e : Nat × String × Nat) (vars : List (Nat × String × Nat))
    (st : DebugVars) :
    insert_variables (e :: vars) st =
      insert_variables vars
        { st with
          id_to_name := ninsert e.1 e.2.1 st.id_to_name
          id_to_type := ninsert e.1 e.2.2 st.id_to_type } := by
  simp [insert_variables]

theorem insert_variables_fields (vars : List (Nat × String × Nat)) (st : DebugVars) :
    (insert_variables vars st).frames = st.frames ∧
    (insert_variables vars st).types = st.types := by
  induction vars generalizing st with
  | nil => simp [insert_variables]
  | cons e rest ih =>
    rw [insert_variables_cons]
    exact ih _

theorem insert_variables_lookup_ne (vars : List (Nat × String × Nat)) (st : DebugVars)
    (k : Nat) (hk : ∀ e ∈ vars, e.1 ≠ k) :
    nlookup k (insert_variables vars st).id_to_name = nlookup k st.id_to_name ∧
    nlookup k (insert_variables vars st).id_to_type = nlookup k st.id_to_type := by
  induction vars generalizing st with
  | nil => simp [insert_variables]
  | cons e rest ih =>
    rw [insert_variables_cons]
    have he : e.1 ≠ k := hk e (by simp)
    have := ih { st with
      id_to_name := ninsert e.1 e.2.1 st.id_to_name
      id_to_type := ninsert e.1 e.2.2 st.id_to_type } (fun x hx => hk x (by simp [hx]))
    rw [this.1, this.2]
    constructor
    · exact nlookup_ninsert_ne k e.1 e.2.1 st.id_to_name (fun h => he h.symm)
    · exact nlookup_ninsert_ne k e.1 e.2.2 st.id_to_type (fun h => he h.symm)

theorem insert_variables_lookup_mem (vars : List (Nat × String × Nat)) (st : DebugVars)
    (e : Nat × String × Nat) (he : e ∈ vars)
    (hnd : (vars.map fun x => x.1).Nodup) :
    nlookup e.1 (insert_variables vars st).id_to_name = some e.2.1 ∧
    nlookup e.1 (insert_variables vars st).id_to_type = some e.2.2 := by
  induction vars generalizing st with
  | nil => simp at he
  | cons x rest ih =>
    rw [insert_variables_cons]
    simp only [List.map_cons, List.nodup_cons] at hnd
    rcases List.mem_cons.mp he with he1 | he2
    · subst he1
      have hk : ∀ y ∈ rest, y.1 ≠ e.1 := by
        intro y hy hcon
        exact hnd.1 (hcon ▸ List.mem_map_of_mem (fun z => z.1) hy)
      have := insert_variables_lookup_ne rest
        { st with
          id_to_name := ninsert e.1 e.2.1 st.id_to_name
          id_to_type := ninsert e.1 e.2.2 st.id_to_type } e.1 hk
      rw [this.1, this.2]
      constructor
      · exact nlookup_ninsert_same e.1 e.2.1 st.id_to_name
      · exact nlookup_ninsert_same e.1 e.2.2 st.id_to_type
    · exact ih _ he2 hnd.2

theorem insert_variables_absorbed (vars : List (Nat × String × Nat)) (st : DebugVars)
    (habs : ∀ e ∈ vars,
      nlookup e.1 st.id_to_name = some e.2.1 ∧ nlookup e.1 st.id_to_type = some e.2.2) :
    insert_variables vars st = st := by
  induction vars generalizing st with
  | nil => simp [insert_variables]
  | cons e rest ih =>
    rw [insert_variables_cons]
    have he := habs e (by simp)
    have h1 : ninsert e.1 e.2.1 st.id_to_name = st.id_to_name :=
      nlookup_ninsert_self _ _ _ he.1
    have h2 : ninsert e.1 e.2.2 st.id_to_type = st.id_to_type :=
      nlookup_ninsert_self _ _ _ he.2
    rw [h1, h2]
    have hst : { st with id_to_name := st.id_to_name, id_to_type := st.id_to_type } = st := by
      cases st
      rfl
    rw [hst]
    exact ih st (fun x hx => habs x (by simp [hx]))

theorem insert_types_cons (e : Nat × PrintableType) (ts : List (Nat × PrintableType))
    (st : DebugVars) :
    insert_types (e :: ts) st =
      insert_types ts { st with types := ninsert e.1 e.2 st.types } := by
  simp [insert_types]

theorem insert_types_lookup_ne (ts : List (Nat × PrintableType)) (st : DebugVars)
    (k : Nat) (hk : ∀ e ∈ ts, e.1 ≠ k) :
    nlookup k (insert_types ts st).types = nlookup k st.types := by
  induction ts generalizing st with
  | nil => simp [insert_types]
  | cons e rest ih =>
    rw [insert_types_cons]
    have he : e.1 ≠ k := hk e (by simp)
    have := ih { st with types := ninsert e.1 e.2 st.types }
      (fun x hx => hk x (by simp [hx]))
    rw [this]
    exact nlookup_ninsert_ne k e.1 e.2 st.types (fun h => he h.symm)

theorem insert_types_lookup_mem (ts : List (Nat × PrintableType)) (st : DebugVars)
    (e : Nat × PrintableType) (he : e ∈ ts)
    (hnd : (ts.map fun x => x.1).Nodup) :
    nlookup e.1 (insert_types ts st).types = some e.2 := by
  induction ts generalizing st with
  | nil => simp at he
  | cons x rest ih =>
    rw [insert_types_cons]
    simp only [List.map_cons, List.nodup_cons] at hnd
    rcases List.mem_cons.mp he with he1 | he2
    · subst he1
      have hk : ∀ y ∈ rest, y.1 ≠ e.1 := by
        intro y hy hcon
        exact hnd.1 (hcon ▸ List.mem_map_of_mem (fun z => z.1) hy)
      rw [insert_types_lookup_ne rest _ e.1 hk]
      exact nlookup_ninsert_same e.1 e.2 st.types
    · exact ih _ he2 hnd.2

theorem insert_types_absorbed (ts : List (Nat × PrintableType)) (st : DebugVars)
    (habs : ∀ e ∈ ts, nlookup e.1 st.types = some e.2) :
    insert_types ts st = st := by
  induction ts generalizing st with
  | nil => simp [insert_types]
  | cons e rest ih =>
    rw [insert_types_cons]
    have h1 : ninsert e.1 e.2 st.types = st.types :=
      nlookup_ninsert_self _ _ _ (habs e (by simp))
    rw [h1]
    have hst : { st with types := st.types } = st := by
      cases st
      rfl
    rw [hst]
    exact ih st (fun x hx => habs x (by simp [hx]))

/-- C8: insert_variables and insert_types are idempotent: registering the
same map (a Rust HashMap, hence with pairwise distinct keys) twice leaves
the store exactly as registering it once. -/
theorem c8_insert_idempotent (st : DebugVars) (vars : List (Nat × String × Nat))
    (ts : List (Nat × PrintableType))
    (hv : (vars.map fun e => e.1).Nodup) (ht : (ts.map fun e => e.1).Nodup) :
    insert_variables vars (insert_variables vars st) = insert_variables vars st ∧
    insert_types ts (insert_types ts st) = insert_types ts st := by
  constructor
  · exact insert_variables_absorbed vars _
      (fun e he => insert_variables_lookup_mem vars st e he hv)
  · exact insert_types_absorbed ts _
      (fun e he => insert_types_lookup_mem ts st e he ht)

/-- C8 witness: a concrete double registration. -/
theorem c8_insert_idempotent_witness :
    insert_variables [(1, "x", 4), (2, "y", 4)]
        (insert_variables [(1, "x", 4), (2, "y", 4)]
          { id_to_name := [], frames := [], id_to_type := [], types := [] }) =
      insert_variables [(1, "x", 4), (2, "y", 4)]
        { id_to_name := [], frames := [], id_to_type := [], types := [] } ∧
    insert_types [(4, .Field)]
        (insert_types [(4, .Field)]
          { id_to_name := [], frames := [], id_to_type := [], types := [] }) =
      insert_types [(4, .Field)]
        { id_to_name := [], frames := [], id_to_type := [], types := [] } :=
  c8_insert_idempotent
    { id_to_name := [], frames := [], id_to_type := [], types := [] }
    [(1, "x", 4), (2, "y", 4)] [(4, .Field)] (by simp) (by simp)

end NoirDebugVars

namespace NoirDebuggerLoop

theorem start_debugger_no_finalize {T : APITypes} {C : Type} (ops : ContextOps T C) :
    ∀ (cmds : List (DebugCommandAPI T)) (ctx : C),
      (∀ c ∈ cmds, isFinalize c = false) →
      (start_debugger ops ctx cmds).length = cmds.length := by
  intro cmds
  induction cmds with
  | nil => intro ctx _; simp [start_debugger]
  | cons c rest ih =>
    intro ctx h
    have hc : isFinalize c = false := h c (by simp)
    simp only [start_debugger, hc, Bool.false_eq_true, if_false, List.length_cons,
      List.append_eq]
    rw [ih _ (fun x hx => h x (by simp [hx]))]

theorem start_debugger_finalize_stops {T : APITypes} {C : Type} (ops : ContextOps T C) :
    ∀ (pre : List (DebugCommandAPI T)) (ctx : C)
      (post : List (DebugCommandAPI T)),
      (∀ c ∈ pre, isFinalize c = false) →
      start_debugger ops ctx (pre ++ .Finalize :: post) =
        start_debugger ops ctx (pre ++ [.Finalize]) ∧
      (start_debugger ops ctx (pre ++ [.Finalize])).length = pre.length + 1 := by
  intro pre
  induction pre with
  | nil =>
    intro ctx post _
    simp [start_debugger, isFinalize]
  | cons c rest ih =>
    intro ctx post h
    have hc : isFinalize c = false := h c (by simp)
    have := ih (exec_command ops ctx c).2 post (fun x hx => h x (by simp [hx]))
    constructor
    · simp only [List.cons_append, start_debugger, hc, Bool.false_eq_true, if_false,
        List.append_eq]
      rw [this.1]
    · simp only [List.cons_append, start_debugger, hc, Bool.false_eq_true, if_false,
        List.length_cons, List.append_eq]
      rw [this.2]

/-- C7: in the worker loop, every command before the first Finalize produces
exactly one result (a command list without Finalize yields exactly one
result per command); a Finalize makes the loop send exactly one more
result, the witness stack, after the results of the preceding commands, and
process nothing further, whatever commands follow. -/
theorem c7_command_loop {T : APITypes} {C : Type} (ops : ContextOps T C) (ctx : C)
    (cmds pre post : List (DebugCommandAPI T))
    (hnf : ∀ c ∈ cmds, isFinalize c = false)
    (hpre : ∀ c ∈ pre, isFinalize c = false) :
    (start_debugger ops ctx cmds).length = cmds.length ∧
    start_debugger ops ctx (pre ++ .Finalize :: post) =
      start_debugger ops ctx (pre ++ [.Finalize]) ∧
    (start_debugger ops ctx (pre ++ [.Finalize])).length = pre.length + 1 ∧
    (∃ ws, start_debugger ops ctx (pre ++ [.Finalize]) =
      start_debugger ops ctx pre ++ [.WitnessStack ws]) := by
  refine ⟨start_debugger_no_finalize ops cmds ctx hnf,
    (start_debugger_finalize_stops ops pre ctx post hpre).1,
    (start_debugger_finalize_stops ops pre ctx post hpre).2, ?_⟩
  clear hnf
  induction pre generalizing ctx with
  | nil =>
    exact ⟨ops.finalize ctx, by simp [start_debugger, isFinalize, exec_command]⟩
  | cons c rest ih =>
    have hc : isFinalize c = false := hpre c (by simp)
    obtain ⟨ws, hws⟩ := ih (exec_command ops ctx c).2 (fun x hx => hpre x (by simp [hx]))
    refine ⟨ws, ?_⟩
    simp only [List.cons_append, start_debugger, hc, Bool.false_eq_true, if_false,
      List.append_eq]
    rw [hws]
    try simp

end NoirDebuggerLoop

namespace NoirDebuggerLoop

/-- C7 witness: the loop over the trivial engine, with two query commands,
a Finalize and trailing commands that are never processed. -/
theorem c7_command_loop_witness :
    (start_debugger trivOps () [.GetOpcodes, .Cont]).length = 2 ∧
    start_debugger trivOps ()
        ([.GetOpcodes] ++ DebugCommandAPI.Finalize :: [.Cont, .Restart]) =
      start_debugger trivOps () ([.GetOpcodes] ++ [.Finalize]) ∧
    (start_debugger trivOps () ([.GetOpcodes] ++ [.Finalize])).length = 1 + 1 := by
  have h := c7_command_loop trivOps () [.GetOpcodes, .Cont] [.GetOpcodes]
    [.Cont, .Restart]
    (by decide) (by decide)
  exact ⟨h.1, h.2.1, h.2.2.1⟩

end NoirDebuggerLoop

namespace NoirPrintable

mutual

theorem ptEq_refl : ∀ p : PrintableType, ptEq p p = true
  | .Field => by simp [ptEq]
  | .Array l t => by simp [ptEq, ptEq_refl t]
  | .Tuple ts => by simp [ptEq, ptListEq_refl ts]
  | .SignedInteger w => by simp [ptEq]
  | .UnsignedInteger w => by simp [ptEq]
  | .Boolean => by simp [ptEq]
  | .Struct n fs => by simp [ptEq, ptFieldsEq_refl fs]
  | .String l => by simp [ptEq]
  | .FmtString => by simp [ptEq]
  | .Error => by simp [ptEq]
  | .Unit => by simp [ptEq]
  | .Constant => by simp [ptEq]
  | .TraitAsType => by simp [ptEq]
  | .TypeVariable => by simp [ptEq]
  | .NamedGeneric => by simp [ptEq]
  | .Forall => by simp [ptEq]
  | .Function n a => by simp [ptEq, ptFieldsEq_refl a]
  | .MutableReference => by simp [ptEq]
  | .NotConstant => by simp [ptEq]
termination_by p => (sizeOf p, 0)

theorem ptListEq_refl : ∀ ts : List PrintableType, ptListEq ts ts = true
  | [] => by simp [ptListEq]
  | t :: ts => by simp [ptListEq, ptEq_refl t, ptListEq_refl ts]
  termination_by ts => (sizeOf ts, 0)

theorem ptFieldsEq_refl : ∀ fs : List (String × PrintableType), ptFieldsEq fs fs = true
  | [] => by simp [ptFieldsEq]
  | (n, t) :: fs => by simp [ptFieldsEq, ptEq_refl t, ptFieldsEq_refl fs]
  termination_by fs => (sizeOf fs, 0)

end

end NoirPrintable

namespace NoirDebugTypes

open NoirPrintable
open NoirDebugVars (nlookup ninsert nlookup_ninsert_same nlookup_ninsert_ne)

theorem tlookup_none_not_mem (p : PrintableType) (l : List (PrintableType × Nat))
    (h : tlookup p l = none) : ∀ i, (p, i) ∉ l := by
  induction l with
  | nil => simp
  | cons e rest ih =>
    obtain ⟨p1, i1⟩ := e
    intro i hmem
    by_cases hp : ptEq p p1 = true
    · simp [tlookup, hp] at h
    · simp [tlookup, hp] at h
      rcases List.mem_cons.mp hmem with h1 | h1
      · have : p = p1 := by
          injection h1 with h2 h3
        subst this
        exact hp (ptEq_refl p)
      · exact ih h i h1

theorem tlookup_some_mem (p : PrintableType) (l : List (PrintableType × Nat)) (i : Nat)
    (h : tlookup p l = some i) : ∃ p1, (p1, i) ∈ l := by
  induction l with
  | nil => simp [tlookup] at h
  | cons e rest ih =>
    obtain ⟨p1, i1⟩ := e
    by_cases hp : ptEq p p1 = true
    · simp [tlookup, hp] at h
      exact ⟨p1, by simp [h]⟩
    · simp [tlookup, hp] at h
      obtain ⟨p2, hp2⟩ := ih h
      exact ⟨p2, by simp [hp2]⟩

theorem tinsert_of_none (p : PrintableType) (v : Nat) (l : List (PrintableType × Nat))
    (h : tlookup p l = none) : tinsert p v l = l ++ [(p, v)] := by
  induction l with
  | nil => simp [tinsert]
  | cons e rest ih =>
    obtain ⟨p1, i1⟩ := e
    by_cases hp : ptEq p p1 = true
    · simp [tlookup, hp] at h
    · simp [tlookup, hp] at h
      simp [tinsert, hp, ih h]

/-- The store invariant maintained by insert_var: the types map and
id_to_type are mutually inverse, every interned id is below next_type_id,
and every variable entry points to an interned id. -/
def DTInv (dt : DebugTypes) : Prop :=
  (∀ p i, (p, i) ∈ dt.types → nlookup i dt.id_to_type = some p) ∧
  (∀ i p, nlookup i dt.id_to_type = some p → (p, i) ∈ dt.types) ∧
  (∀ p i, (p, i) ∈ dt.types → i < dt.next_type_id) ∧
  (∀ v n i, nlookup v dt.vars = some (n, i) → ∃ p1, (p1, i) ∈ dt.types) ∧
  (∀ p i j, (p, i) ∈ dt.types → (p, j) ∈ dt.types → i = j)

theorem dtinv_empty : DTInv DebugTypes.empty := by
  refine ⟨?_, ?_, ?_, ?_, ?_⟩ <;> simp [DebugTypes.empty, NoirDebugVars.nlookup]

theorem dtinv_insert_var (dt : DebugTypes) (var_id : Nat) (var_name : String)
    (ptype : PrintableType) (hinv : DTInv dt) :
    DTInv (dt.insert_var var_id var_name ptype) := by
  obtain ⟨inv1, inv2, inv3, inv4, inv5⟩ := hinv
  unfold DebugTypes.insert_var
  cases htl : tlookup ptype dt.types with
  | some tid =>
    dsimp only
    refine ⟨inv1, inv2, inv3, ?_, inv5⟩
    intro v n i hv
    by_cases hvv : v = var_id
    · subst hvv
      rw [nlookup_ninsert_same] at hv
      have hi : tid = i := congrArg Prod.snd (Option.some.inj hv)
      subst hi
      exact tlookup_some_mem ptype dt.types tid htl
    · rw [nlookup_ninsert_ne _ _ _ _ hvv] at hv
      exact inv4 v n i hv
  | none =>
    dsimp only
    have hfresh : ∀ p1, (p1, dt.next_type_id) ∉ dt.types := by
      intro p1 hmem
      exact absurd (inv3 p1 dt.next_type_id hmem) (by omega)
    have hnotmem : ∀ i, (ptype, i) ∉ dt.types := tlookup_none_not_mem _ _ htl
    rw [tinsert_of_none _ _ _ htl]
    refine ⟨?_, ?_, ?_, ?_, ?_⟩
    · intro p i hmem
      rcases List.mem_append.mp hmem with h1 | h1
      · have hne : i ≠ dt.next_type_id := by
          intro hcon
          exact hfresh p (hcon ▸ h1)
        rw [nlookup_ninsert_ne _ _ _ _ hne]
        exact inv1 p i h1
      · simp at h1
        obtain ⟨hp, hi⟩ := h1
        subst hp
        subst hi
        rw [nlookup_ninsert_same]
    · intro i p hl
      by_cases hii : i = dt.next_type_id
      · subst hii
        rw [nlookup_ninsert_same] at hl
        injection hl with hl1
        subst hl1
        simp
      · rw [nlookup_ninsert_ne _ _ _ _ hii] at hl
        exact List.mem_append_left _ (inv2 i p hl)
    · intro p i hmem
      dsimp only
      rcases List.mem_append.mp hmem with h1 | h1
      · have := inv3 p i h1
        omega
      · simp at h1
        omega
    · intro v n i hv
      by_cases hvv : v = var_id
      · subst hvv
        rw [nlookup_ninsert_same] at hv
        have hi : dt.next_type_id = i := congrArg Prod.snd (Option.some.inj hv)
        subst hi
        exact ⟨ptype, by simp⟩
      · rw [nlookup_ninsert_ne _ _ _ _ hvv] at hv
        obtain ⟨p1, hp1⟩ := inv4 v n i hv
        exact ⟨p1, List.mem_append_left _ hp1⟩
    · intro p i j hi hj
      rcases List.mem_append.mp hi with h1 | h1 <;>
        rcases List.mem_append.mp hj with h2 | h2
      · exact inv5 p i j h1 h2
      · simp at h2
        exact absurd (h2.1 ▸ h1) (hnotmem i)
      · simp at h1
        exact absurd (h1.1 ▸ h2) (hnotmem j)
      · simp at h1 h2
        omega

theorem dtinv_applyInserts (l : List (Nat × String × PrintableType)) :
    ∀ dt, DTInv dt → DTInv (applyInserts dt l) := by
  induction l with
  | nil => intro dt h; simpa [applyInserts] using h
  | cons e rest ih =>
    intro dt h
    simp only [applyInserts]
    exact ih _ (dtinv_insert_var dt e.1 e.2.1 e.2.2 h)

/-- C10: after any sequence of insert_var calls on the empty DebugTypes
store, the types and id_to_type maps are mutually inverse, two variables
whose resolved printable types agree are mapped to the same type id, and
every assigned type id is strictly below next_type_id. -/
theorem c10_interning (l : List (Nat × String × PrintableType)) :
    (∀ p i, (p, i) ∈ (applyInserts DebugTypes.empty l).types →
      nlookup i (applyInserts DebugTypes.empty l).id_to_type = some p) ∧
    (∀ i p, nlookup i (applyInserts DebugTypes.empty l).id_to_type = some p →
      (p, i) ∈ (applyInserts DebugTypes.empty l).types) ∧
    (∀ v1 v2 n1 n2 i1 i2,
      nlookup v1 (applyInserts DebugTypes.empty l).vars = some (n1, i1) →
      nlookup v2 (applyInserts DebugTypes.empty l).vars = some (n2, i2) →
      nlookup i1 (applyInserts DebugTypes.empty l).id_to_type =
        nlookup i2 (applyInserts DebugTypes.empty l).id_to_type →
      i1 = i2) ∧
    (∀ p i, (p, i) ∈ (applyInserts DebugTypes.empty l).types →
      i < (applyInserts DebugTypes.empty l).next_type_id) ∧
    (∀ v n i, nlookup v (applyInserts DebugTypes.empty l).vars = some (n, i) →
      i < (applyInserts DebugTypes.empty l).next_type_id) := by
  obtain ⟨inv1, inv2, inv3, inv4, inv5⟩ :=
    dtinv_applyInserts l DebugTypes.empty dtinv_empty
  refine ⟨inv1, inv2, ?_, inv3, ?_⟩
  · intro v1 v2 n1 n2 i1 i2 h1 h2 heq
    obtain ⟨p1, hp1⟩ := inv4 v1 n1 i1 h1
    obtain ⟨p2, hp2⟩ := inv4 v2 n2 i2 h2
    have e1 := inv1 p1 i1 hp1
    have e2 := inv1 p2 i2 hp2
    rw [e1, e2] at heq
    injection heq with heq1
    subst heq1
    exact inv5 p1 i1 i2 hp1 hp2
  · intro v n i hv
    obtain ⟨p1, hp1⟩ := inv4 v n i hv
    exact inv3 p1 i hp1

/-- C10 witness: two variables registered with the same printable type get
the interned id 0 twice, and the claim theorem identifies the two ids. -/
theorem c10_interning_witness :
    nlookup 1 (applyInserts DebugTypes.empty
      [(1, "x", .Field), (2, "y", .Field)]).vars = some ("x", 0) ∧
    nlookup 2 (applyInserts DebugTypes.empty
      [(1, "x", .Field), (2, "y", .Field)]).vars = some ("y", 0) ∧
    (0 : Nat) = 0 := by
  have hs : applyInserts DebugTypes.empty
      [(1, "x", PrintableType.Field), (2, "y", PrintableType.Field)] =
      { vars := [(1, ("x", 0)), (2, ("y", 0))],
        types := [(PrintableType.Field, 0)],
        id_to_type := [(0, PrintableType.Field)],
        next_type_id := 1 } := by
    simp [applyInserts, DebugTypes.empty, DebugTypes.insert_var, tlookup, tinsert,
      ptEq, NoirDebugVars.ninsert]
  have hv1 : nlookup 1 (applyInserts DebugTypes.empty
      [(1, "x", PrintableType.Field), (2, "y", PrintableType.Field)]).vars =
      some ("x", 0) := by
    rw [hs]
    simp [NoirDebugVars.nlookup]
  have hv2 : nlookup 2 (applyInserts DebugTypes.empty
      [(1, "x", PrintableType.Field), (2, "y", PrintableType.Field)]).vars =
      some ("y", 0) := by
    rw [hs]
    simp [NoirDebugVars.nlookup]
  exact ⟨hv1, hv2,
    (c10_interning [(1, "x", .Field), (2, "y", .Field)]).2.2.1 1 2 "x" "y" 0 0
      hv1 hv2 rfl⟩

end NoirDebugTypes

namespace NoirPrintable

/-- C1 counterexample: the claim says a combination not covered by the
printable model formats as the string <<opaque>>. On the code, to_string
falls through to None for the uncovered pair (Other, Field), Display turns
that None into a format error and no string at all is produced; the text
<<opaque>> appears nowhere. A covered pair with a mismatched nested element,
(Vec [Other], Array(Some 1, Field)), even panics inside format!, refuting
the never-panics part as well. -/
theorem c1_counterexample :
    display_plain .Other .Field = none ∧
    display_plain .Other .Field ≠ some "<<opaque>>" ∧
    to_string (.Vec [.Other]) (.Array (some 1) .Field) = none := by
  refine ⟨?_, ?_, ?_⟩
  · simp [display_plain, to_string]
  · simp [display_plain, to_string]
  · simp [to_string, to_string_vec]

/-- C1 (amended): formatting is a function with explicit failure modes
rather than a total string producer: every value and type pair whose shapes
are not covered by a non-default arm of to_string yields the None
fall-through, which Display surfaces as a format error, so no string
(in particular never <<opaque>>) is produced for it; a covered scalar pair
such as a field element with Field type formats to its hex string. -/
theorem c1_uncovered_formats_to_error (v : PrintableValue) (t : PrintableType)
    (h : covered v t = false) :
    to_string v t = some none ∧ display_plain v t = none := by
  have hts : to_string v t = some none := by
    cases v <;> cases t <;> simp_all [to_string, covered]
  exact ⟨hts, by simp [display_plain, hts]⟩

/-- C1 witness: the amended claim at the uncovered pair (Other, Field). -/
theorem c1_uncovered_formats_to_error_witness :
    covered .Other .Field = false ∧
    to_string .Other .Field = some none ∧ display_plain .Other .Field = none :=
  ⟨rfl, (c1_uncovered_formats_to_error .Other .Field rfl).1,
    (c1_uncovered_formats_to_error .Other .Field rfl).2⟩

end NoirPrintable

namespace NoirPrintable

theorem utf8DecodeGo_ascii (fuel : Nat) : ∀ bs : List Nat,
    bs.length ≤ fuel → (∀ b ∈ bs, b < 128) →
    utf8DecodeGo fuel bs = some (bs.map Char.ofNat) := by
  induction fuel with
  | zero =>
    intro bs hlen _
    cases bs with
    | nil => simp [utf8DecodeGo]
    | cons b rest => simp at hlen
  | succ n ih =>
    intro bs hlen hascii
    cases bs with
    | nil => simp [utf8DecodeGo]
    | cons b rest =>
      have hb : b ≤ 0x7F := by
        have := hascii b (by simp)
        omega
      have h1 : utf8DecodeOne b rest = some (Char.ofNat b, rest) := by
        simp [utf8DecodeOne, hb]
      simp only [utf8DecodeGo, h1]
      rw [ih rest (by simp at hlen; omega) (fun x hx => hascii x (by simp [hx]))]
      simp

theorem utf8Decode_ascii (bs : List Nat) (h : ∀ b ∈ bs, b < 128) :
    ∃ cs, utf8Decode bs = some cs :=
  ⟨bs.map Char.ofNat, utf8DecodeGo_ascii bs.length bs (by omega) h⟩

theorem decode_string_value_ascii (bs : List Nat) (h : ∀ b ∈ bs, b < 128) :
    ∃ s, decode_string_value bs = some s := by
  obtain ⟨cs, hcs⟩ := utf8Decode_ascii bs h
  refine ⟨String.mk cs, ?_⟩
  have hall : bs.all (fun e => decide (e < 256)) = true := by
    simp only [List.all_eq_true]
    intro x hx
    have := h x hx
    simp
    omega
  simp [decode_string_value, hall, hcs]

theorem ascii_drop (s : List F) (k : Nat) (h : ∀ b ∈ s, b < 128) :
    ∀ b ∈ s.drop k, b < 128 :=
  fun b hb => h b (List.mem_of_mem_drop hb)

theorem ascii_take (s : List F) (k : Nat) (h : ∀ b ∈ s, b < 128) :
    ∀ b ∈ s.take k, b < 128 :=
  fun b hb => h b (List.mem_of_mem_take hb)

mutual

theorem decode_value_consumes : ∀ (t : PrintableType) (s : List F) (m : Nat),
    field_count_exact t = some m → m ≤ s.length → (∀ b ∈ s, b < 128) →
    ∃ v, decode_value s t = some (v, s.drop m)
  | .Field, s, m, hm, hlen, _ => by
    simp [field_count_exact] at hm
    subst hm
    cases s with
    | nil => simp at hlen
    | cons f r => exact ⟨.Field f, by simp [decode_value]⟩
  | .SignedInteger w, s, m, hm, hlen, _ => by
    simp [field_count_exact] at hm
    subst hm
    cases s with
    | nil => simp at hlen
    | cons f r => exact ⟨.Field f, by simp [decode_value]⟩
  | .UnsignedInteger w, s, m, hm, hlen, _ => by
    simp [field_count_exact] at hm
    subst hm
    cases s with
    | nil => simp at hlen
    | cons f r => exact ⟨.Field f, by simp [decode_value]⟩
  | .Boolean, s, m, hm, hlen, _ => by
    simp [field_count_exact] at hm
    subst hm
    cases s with
    | nil => simp at hlen
    | cons f r => exact ⟨.Field f, by simp [decode_value]⟩
  | .Array none typ, s, m, hm, hlen, _ => by
    simp [field_count_exact] at hm
  | .Array (some len) typ, s, m, hm, hlen, hascii => by
    simp only [field_count_exact, Option.some_bind, Option.map_eq_some'] at hm
    obtain ⟨c, hc, hm1⟩ := hm
    obtain ⟨vs, hvs⟩ := decode_repeat_consumes typ s len c hc
      (by rw [hm1]; exact hlen) hascii
    subst hm1
    exact ⟨.Vec vs, by simp only [decode_value, hvs, Option.map_some']⟩
  | .Tuple types, s, m, hm, hlen, hascii => by
    simp only [field_count_exact] at hm
    obtain ⟨vs, hvs⟩ := decode_tuple_consumes types s m hm hlen hascii
    exact ⟨.Vec vs, by simp [decode_value, hvs]⟩
  | .String len, s, m, hm, hlen, hascii => by
    simp [field_count_exact] at hm
    subst hm
    obtain ⟨str, hstr⟩ := decode_string_value_ascii (s.take len) (ascii_take s len hascii)
    exact ⟨.String str, by simp only [decode_value, hstr, Option.map_some']⟩
  | .Struct nm fields, s, m, hm, hlen, hascii => by
    simp only [field_count_exact] at hm
    obtain ⟨mp, hmp⟩ := decode_fields_consumes fields [] s m hm hlen hascii
    exact ⟨.Struct mp, by simp [decode_value, hmp]⟩
  | .FmtString, s, m, hm, hlen, _ => by
    simp [field_count_exact] at hm
    subst hm
    exact ⟨.Other, by simp [decode_value]⟩
  | .Error, s, m, hm, hlen, _ => by
    simp [field_count_exact] at hm
    subst hm
    exact ⟨.Other, by simp [decode_value]⟩
  | .Unit, s, m, hm, hlen, _ => by
    simp [field_count_exact] at hm
    subst hm
    exact ⟨.Other, by simp [decode_value]⟩
  | .Constant, s, m, hm, hlen, _ => by
    simp [field_count_exact] at hm
    subst hm
    exact ⟨.Other, by simp [decode_value]⟩
  | .TraitAsType, s, m, hm, hlen, _ => by
    simp [field_count_exact] at hm
    subst hm
    exact ⟨.Other, by simp [decode_value]⟩
  | .TypeVariable, s, m, hm, hlen, _ => by
    simp [field_count_exact] at hm
    subst hm
    exact ⟨.Other, by simp [decode_value]⟩
  | .NamedGeneric, s, m, hm, hlen, _ => by
    simp [field_count_exact] at hm
    subst hm
    exact ⟨.Other, by simp [decode_value]⟩
  | .Forall, s, m, hm, hlen, _ => by
    simp [field_count_exact] at hm
    subst hm
    exact ⟨.Other, by simp [decode_value]⟩
  | .Function nm args, s, m, hm, hlen, _ => by
    simp [field_count_exact] at hm
    subst hm
    exact ⟨.Other, by simp [decode_value]⟩
  | .MutableReference, s, m, hm, hlen, _ => by
    simp [field_count_exact] at hm
    subst hm
    exact ⟨.Other, by simp [decode_value]⟩
  | .NotConstant, s, m, hm, hlen, _ => by
    simp [field_count_exact] at hm
    subst hm
    exact ⟨.Other, by simp [decode_value]⟩
termination_by t _ _ => (sizeOf t, 0)

theorem decode_repeat_consumes : ∀ (typ : PrintableType) (s : List F) (n c : Nat),
    field_count_exact typ = some c → c * n ≤ s.length → (∀ b ∈ s, b < 128) →
    ∃ vs, decode_repeat s typ n = some (vs, s.drop (c * n))
  | typ, s, 0, c, hc, hlen, _ => ⟨[], by simp [decode_repeat]⟩
  | typ, s, n + 1, c, hc, hlen, hascii => by
    have hc1 : c ≤ s.length := by
      have : c * 1 ≤ c * (n + 1) := Nat.mul_le_mul_left c (by omega)
      omega
    obtain ⟨v, hv⟩ := decode_value_consumes typ s c hc hc1 hascii
    have hlen2 : c * n ≤ (s.drop c).length := by
      simp only [List.length_drop]
      have : c * (n + 1) = c * n + c := by ring
      omega
    obtain ⟨vs, hvs⟩ := decode_repeat_consumes typ (s.drop c) n c hc hlen2
      (ascii_drop s c hascii)
    refine ⟨v :: vs, ?_⟩
    simp only [decode_repeat, hv, Option.some_bind, hvs, Option.map_some']
    rw [List.drop_drop]
    congr 2
    ring
  termination_by typ _ n => (sizeOf typ, n + 1)

theorem decode_tuple_consumes : ∀ (ts : List PrintableType) (s : List F) (m : Nat),
    field_count_exact_list ts = some m → m ≤ s.length → (∀ b ∈ s, b < 128) →
    ∃ vs, decode_tuple s ts = some (vs, s.drop m)
  | [], s, m, hm, _, _ => by
    simp [field_count_exact_list] at hm
    subst hm
    exact ⟨[], by simp [decode_tuple]⟩
  | t :: ts, s, m, hm, hlen, hascii => by
    simp only [field_count_exact_list, Option.bind_eq_some, Option.map_eq_some'] at hm
    obtain ⟨c, hc, r, hr, hm1⟩ := hm
    subst hm1
    obtain ⟨v, hv⟩ := decode_value_consumes t s c hc (by omega) hascii
    obtain ⟨vs, hvs⟩ := decode_tuple_consumes ts (s.drop c) r hr
      (by simp only [List.length_drop]; omega) (ascii_drop s c hascii)
    refine ⟨v :: vs, ?_⟩
    simp only [decode_tuple, hv, Option.some_bind, hvs, Option.map_some']
    rw [List.drop_drop, Nat.add_comm]
  termination_by ts _ _ => (sizeOf ts, 0)

theorem decode_fields_consumes :
    ∀ (fs : List (String × PrintableType)) (acc : List (String × PrintableValue))
      (s : List F) (m : Nat),
    field_count_exact_fields fs = some m → m ≤ s.length → (∀ b ∈ s, b < 128) →
    ∃ mp, decode_fields s acc fs = some (mp, s.drop m)
  | [], acc, s, m, hm, _, _ => by
    simp [field_count_exact_fields] at hm
    subst hm
    exact ⟨acc, by simp [decode_fields]⟩
  | (key, t) :: fs, acc, s, m, hm, hlen, hascii => by
    simp only [field_count_exact_fields, Option.bind_eq_some, Option.map_eq_some'] at hm
    obtain ⟨c, hc, r, hr, hm1⟩ := hm
    subst hm1
    obtain ⟨v, hv⟩ := decode_value_consumes t s c hc (by omega) hascii
    obtain ⟨mp, hmp⟩ := decode_fields_consumes fs (btreeInsert key v acc) (s.drop c) r hr
      (by simp only [List.length_drop]; omega) (ascii_drop s c hascii)
    refine ⟨mp, ?_⟩
    simp only [decode_fields, hv, Option.some_bind, hmp]
    rw [List.drop_drop, Nat.add_comm]
  termination_by fs _ _ _ => (sizeOf fs, 0)

end

end NoirPrintable

namespace NoirPrintable

mutual

theorem field_count_mod : ∀ t : PrintableType,
    field_count t = (field_count_exact t).map fun m => m % 2 ^ 32
  | .Field => by simp [field_count, field_count_exact]
  | .SignedInteger w => by simp [field_count, field_count_exact]
  | .UnsignedInteger w => by simp [field_count, field_count_exact]
  | .Boolean => by simp [field_count, field_count_exact]
  | .Array len typ => by
    simp only [field_count, field_count_exact, field_count_mod typ]
    cases len with
    | none => simp
    | some l =>
      cases field_count_exact typ with
      | none => simp
      | some c =>
        simp only [Option.some_bind, Option.map_some']
        congr 1
        conv_rhs => rw [Nat.mul_mod]
  | .Tuple types => by
    simp only [field_count, field_count_exact, field_count_list_mod types]
  | .Struct nm fields => by
    simp only [field_count, field_count_exact, field_count_fields_mod fields]
  | .String len => by simp [field_count, field_count_exact]
  | .FmtString => by simp [field_count, field_count_exact]
  | .Error => by simp [field_count, field_count_exact]
  | .Unit => by simp [field_count, field_count_exact]
  | .Constant => by simp [field_count, field_count_exact]
  | .TraitAsType => by simp [field_count, field_count_exact]
  | .TypeVariable => by simp [field_count, field_count_exact]
  | .NamedGeneric => by simp [field_count, field_count_exact]
  | .Forall => by simp [field_count, field_count_exact]
  | .Function nm args => by simp [field_count, field_count_exact]
  | .MutableReference => by simp [field_count, field_count_exact]
  | .NotConstant => by simp [field_count, field_count_exact]
termination_by t => (sizeOf t, 0)

theorem field_count_list_mod : ∀ ts : List PrintableType,
    field_count_list ts = (field_count_exact_list ts).map fun m => m % 2 ^ 32
  | [] => by simp [field_count_list, field_count_exact_list]
  | t :: ts => by
    simp only [field_count_list, field_count_exact_list, field_count_mod t,
      field_count_list_mod ts]
    cases field_count_exact t with
    | none => simp
    | some c =>
      cases field_count_exact_list ts with
      | none => simp
      | some r =>
        simp [Nat.add_mod]
  termination_by ts => (sizeOf ts, 0)

theorem field_count_fields_mod : ∀ fs : List (String × PrintableType),
    field_count_fields fs = (field_count_exact_fields fs).map fun m => m % 2 ^ 32
  | [] => by simp [field_count_fields, field_count_exact_fields]
  | (nm, t) :: fs => by
    simp only [field_count_fields, field_count_exact_fields, field_count_mod t,
      field_count_fields_mod fs]
    cases field_count_exact t with
    | none => simp
    | some c =>
      cases field_count_exact_fields fs with
      | none => simp
      | some r =>
        simp [Nat.add_mod]
  termination_by fs => (sizeOf fs, 0)

end

end NoirPrintable

namespace NoirPrintable

/-- C2 counterexample: the claim says decode_value consumes exactly
field_count(t) elements and returns a value whenever the stream holds
enough elements. The u32 cast in field_count truncates the length of
String(2 to the 32) to 0, yet decode_value consumes 2 to the 32 elements
(here: the whole 1-element stream instead of 0 elements); and for String(1)
the 1-element stream [300] holds field_count = 1 elements but decode_value
panics on the byte assert instead of returning a value. -/
theorem c2_counterexample :
    field_count (.String (2 ^ 32)) = some 0 ∧
    decode_value [97] (.String (2 ^ 32)) = some (.String "a", []) ∧
    ([] : List F) ≠ List.drop 0 [97] ∧
    decode_value [300] (.String 1) = none := by
  refine ⟨?_, ?_, ?_, ?_⟩
  · simp [field_count]
  · have h1 : List.take (2 ^ 32) [(97 : F)] = [97] :=
      List.take_of_length_le (by norm_num)
    have h2 : List.drop (2 ^ 32) [(97 : F)] = [] :=
      List.drop_eq_nil_of_le (by norm_num)
    have h3 : decode_string_value [97] = some "a" := by decide
    simp only [decode_value, h1, h2, h3, Option.map_some']
  · simp
  · have h1 : List.take 1 [(300 : F)] = [300] :=
      List.take_of_length_le (by norm_num)
    have h3 : decode_string_value [300] = none := by decide
    simp only [decode_value, h1, h3, Option.map_none']

/-- C2 (amended): for every printable type t whose untruncated element count
is m, a stream of at least m elements that are all ASCII byte values (below
128, so string segments decode) is consumed by decode_value to exactly m
elements, with a PrintableValue returned; field_count reports m reduced
modulo 2 to the 32 (the u32 arithmetic of the source), so it equals the
consumed count exactly when m is below 2 to the 32. -/
theorem c2_decode_consumes_exact_count (t : PrintableType) (s : List F) (m : Nat)
    (hm : field_count_exact t = some m) (hlen : m ≤ s.length)
    (hascii : ∀ b ∈ s, b < 128) :
    field_count t = some (m % 2 ^ 32) ∧
    (m < 2 ^ 32 → field_count t = some m) ∧
    ∃ v, decode_value s t = some (v, s.drop m) := by
  refine ⟨?_, ?_, decode_value_consumes t s m hm hlen hascii⟩
  · rw [field_count_mod t, hm]
    rfl
  · intro hsmall
    rw [field_count_mod t, hm]
    simp only [Option.map_some']
    congr 1
    exact Nat.mod_eq_of_lt (by norm_num at hsmall ⊢; omega)

/-- C2 witness: a tuple of a field, a 2-character string and a 2-element
boolean array consumes exactly its field count 5 from a 6-element stream. -/
theorem c2_decode_consumes_exact_count_witness :
    field_count_exact (.Tuple [.Field, .String 2, .Array (some 2) .Boolean]) =
      some 5 ∧
    field_count (.Tuple [.Field, .String 2, .Array (some 2) .Boolean]) = some 5 ∧
    ∃ v, decode_value [9, 97, 98, 1, 0, 7]
        (.Tuple [.Field, .String 2, .Array (some 2) .Boolean]) =
      some (v, List.drop 5 [9, 97, 98, 1, 0, 7]) := by
  have hm : field_count_exact (.Tuple [.Field, .String 2, .Array (some 2) .Boolean]) =
      some 5 := by
    simp [field_count_exact, field_count_exact_list]
  have h := c2_decode_consumes_exact_count
    (.Tuple [.Field, .String 2, .Array (some 2) .Boolean])
    [9, 97, 98, 1, 0, 7] 5 hm (by simp) (by decide)
  exact ⟨hm, h.2.1 (by norm_num), h.2.2⟩

end NoirPrintable

namespace NoirDebugVars

open NoirPrintable

theorem alookup_areplace_self {α : Type} (k : String) (v x : α)
    (m : List (String × α)) (h : alookup k m = some x) :
    alookup k (areplace k v m) = some v := by
  induction m with
  | nil => simp [alookup] at h
  | cons kv rest ih =>
    obtain ⟨k1, v1⟩ := kv
    by_cases hk : k = k1
    · simp [areplace, hk, alookup]
    · simp [alookup, hk] at h
      simp [areplace, hk, alookup, ih h]

theorem alookup_areplace_ne {α : Type} (k k1 : String) (v : α)
    (m : List (String × α)) (h : k ≠ k1) :
    alookup k (areplace k1 v m) = alookup k m := by
  induction m with
  | nil => simp [areplace]
  | cons kv rest ih =>
    obtain ⟨k2, v2⟩ := kv
    by_cases hk : k1 = k2
    · subst hk
      simp [areplace, alookup, h]
    · by_cases hk2 : k = k2
      · simp [areplace, hk, alookup, hk2]
      · simp [areplace, hk, alookup, hk2, ih]

theorem wf_type_list_mem (ts : List PrintableType) (hwf : wf_type_list ts = true) :
    ∀ t ∈ ts, wf_type t = true := by
  induction ts with
  | nil => simp
  | cons t1 rest ih =>
    intro t ht
    rw [wf_type_list] at hwf
    simp only [Bool.and_eq_true] at hwf
    rcases List.mem_cons.mp ht with h | h
    · exact h ▸ hwf.1
    · exact ih hwf.2 t h

theorem wf_type_fields_mem (fs : List (String × PrintableType))
    (hwf : wf_type_fields fs = true) : ∀ kt ∈ fs, wf_type kt.2 = true := by
  induction fs with
  | nil => simp
  | cons kt1 rest ih =>
    intro kt ht
    obtain ⟨k1, t1⟩ := kt1
    rw [wf_type_fields] at hwf
    simp only [Bool.and_eq_true] at hwf
    rcases List.mem_cons.mp ht with h | h
    · exact h ▸ hwf.1
    · exact ih hwf.2 kt h

theorem keysNodup_ne (ks : List String) (hnd : keysNodup ks = true) :
    ∀ (i j : Nat) (ki kj : String), i ≠ j →
      ks[i]? = some ki → ks[j]? = some kj → ki ≠ kj := by
  induction ks with
  | nil => intro i j ki kj _ h; simp at h
  | cons k rest ih =>
    rw [keysNodup] at hnd
    simp only [Bool.and_eq_true, Bool.not_eq_true'] at hnd
    have hnotmem : k ∉ rest := by simpa using hnd.1
    intro i j ki kj hij hi hj
    match i, j with
    | 0, 0 => exact absurd rfl hij
    | 0, j' + 1 =>
      simp at hi
      subst hi
      simp at hj
      intro hcon
      exact hnotmem (hcon ▸ List.getElem?_mem hj)
    | i' + 1, 0 =>
      simp at hj
      subst hj
      simp at hi
      intro hcon
      exact hnotmem (hcon ▸ List.getElem?_mem hi)
    | i' + 1, j' + 1 =>
      simp at hi hj
      exact ih hnd.2 i' j' ki kj (by omega) hi hj

end NoirDebugVars

namespace NoirDebugVars

open NoirPrintable

theorem assign_path_peek (vals : List F) :
    ∀ (path : List Nat) (v : PrintableValue) (t : PrintableType)
      (v1 : PrintableValue),
    assign_path v t path vals = some v1 →
    ∃ sv subt, peek v t path = some (sv, subt) ∧
      ∃ x, decode_value vals subt = some x ∧ peek v1 t path = some (x.1, subt) := by
  intro path
  induction path with
  | nil =>
    intro v t v1 h
    simp only [assign_path, Option.map_eq_some'] at h
    obtain ⟨x, hx, hv1⟩ := h
    exact ⟨v, t, by simp [peek], x, hx, by simp [peek, hv1]⟩
  | cons i rest ih =>
    intro v t v1 h
    cases v with
    | Field f => cases t <;> simp [assign_path] at h
    | String s => cases t <;> simp [assign_path] at h
    | Other => cases t <;> simp [assign_path] at h
    | Struct field_map =>
      cases t with
      | Struct nm fields =>
        simp only [assign_path] at h
        split_ifs at h with h1
        cases hkt : fields[i]? with
        | none => simp [hkt] at h
        | some kt =>
          rw [hkt] at h
          dsimp only at h
          cases halk : alookup kt.1 field_map with
          | none => simp [halk] at h
          | some child =>
            rw [halk] at h
            dsimp only at h
            simp only [Option.map_eq_some'] at h
            obtain ⟨c, hc, hv1⟩ := h
            obtain ⟨sv, subt, hpk, x, hdec, hpk1⟩ := ih child kt.2 c hc
            refine ⟨sv, subt, ?_, x, hdec, ?_⟩
            · simp only [peek, hkt, halk]
              exact hpk
            · subst hv1
              simp only [peek, hkt, alookup_areplace_self kt.1 c child field_map halk]
              exact hpk1
      | _ => first
        | simp [assign_path] at h
        | skip
    | Vec array =>
      cases t with
      | Array length typ =>
        simp only [assign_path] at h
        cases length with
        | some len =>
          dsimp only at h
          split_ifs at h with h1 h2
          cases harr : array[i]? with
          | none => simp [harr] at h
          | some child =>
            rw [harr] at h
            dsimp only at h
            simp only [Option.map_eq_some'] at h
            obtain ⟨c, hc, hv1⟩ := h
            obtain ⟨sv, subt, hpk, x, hdec, hpk1⟩ := ih child typ c hc
            refine ⟨sv, subt, ?_, x, hdec, ?_⟩
            · simp only [peek, harr]
              exact hpk
            · subst hv1
              have hlt : i < array.length := by omega
              simp only [peek, List.getElem?_set_eq_of_lt c hlt]
              exact hpk1
        | none =>
          dsimp only at h
          cases harr : array[i]? with
          | none => rw [harr] at h; simp at h
          | some child =>
            rw [harr] at h
            dsimp only at h
            simp only [Option.map_eq_some'] at h
            obtain ⟨c, hc, hv1⟩ := h
            obtain ⟨sv, subt, hpk, x, hdec, hpk1⟩ := ih child typ c hc
            refine ⟨sv, subt, ?_, x, hdec, ?_⟩
            · simp only [peek, harr]
              exact hpk
            · subst hv1
              have hlt : i < array.length := (List.getElem?_eq_some.mp harr).1
              simp only [peek, List.getElem?_set_eq_of_lt c hlt]
              exact hpk1
      | Tuple types =>
        simp only [assign_path] at h
        split_ifs at h with h1 h2
        cases htyp : types[i]? with
        | none => rw [htyp] at h; simp at h
        | some typ =>
          cases harr : array[i]? with
          | none => rw [htyp, harr] at h; simp at h
          | some child =>
            rw [htyp, harr] at h
            dsimp only at h
            simp only [Option.map_eq_some'] at h
            obtain ⟨c, hc, hv1⟩ := h
            obtain ⟨sv, subt, hpk, x, hdec, hpk1⟩ := ih child typ c hc
            refine ⟨sv, subt, ?_, x, hdec, ?_⟩
            · simp only [peek, htyp, harr]
              exact hpk
            · subst hv1
              have hlt : i < array.length := by omega
              simp only [peek, htyp, List.getElem?_set_eq_of_lt c hlt]
              exact hpk1
      | _ => first
        | simp [assign_path] at h
        | skip

end NoirDebugVars

namespace NoirDebugVars

open NoirPrintable

theorem assign_path_off_path (vals : List F) :
    ∀ (path q : List Nat) (v : PrintableValue) (t : PrintableType)
      (v1 : PrintableValue),
    assign_path v t path vals = some v1 → wf_type t = true →
    isIndexPrefixOf path q = false → isIndexPrefixOf q path = false →
    peek v1 t q = peek v t q := by
  intro path
  induction path with
  | nil =>
    intro q v t v1 h hwf hp hq
    simp [isIndexPrefixOf] at hp
  | cons i rest ih =>
    intro q v t v1 h hwf hp hq
    cases q with
    | nil => simp [isIndexPrefixOf] at hq
    | cons j q1 =>
      cases v with
      | Field f => cases t <;> simp [assign_path] at h
      | String s => cases t <;> simp [assign_path] at h
      | Other => cases t <;> simp [assign_path] at h
      | Struct field_map =>
        cases t with
        | Struct nm fields =>
          simp only [assign_path] at h
          split_ifs at h with h1
          cases hkt : fields[i]? with
          | none => simp [hkt] at h
          | some kt =>
            rw [hkt] at h
            dsimp only at h
            cases halk : alookup kt.1 field_map with
            | none => simp [halk] at h
            | some child =>
              rw [halk] at h
              dsimp only at h
              simp only [Option.map_eq_some'] at h
              obtain ⟨c, hc, hv1⟩ := h
              subst hv1
              rw [wf_type] at hwf
              simp only [Bool.and_eq_true] at hwf
              by_cases hij : i = j
              · subst hij
                simp only [isIndexPrefixOf, beq_self_eq_true, Bool.true_and] at hp hq
                have hwfc : wf_type kt.2 = true :=
                  wf_type_fields_mem fields hwf.2 kt (List.getElem?_mem hkt)
                simp only [peek, hkt, halk,
                  alookup_areplace_self kt.1 c child field_map halk]
                exact ih q1 child kt.2 c hc hwfc hp hq
              · cases hkj : fields[j]? with
                | none => simp only [peek, hkj]
                | some kj =>
                  have hne : kj.1 ≠ kt.1 := by
                    have hmi : (fields.map fun f => f.1)[i]? = some kt.1 := by
                      simp [List.getElem?_map, hkt]
                    have hmj : (fields.map fun f => f.1)[j]? = some kj.1 := by
                      simp [List.getElem?_map, hkj]
                    exact keysNodup_ne (fields.map fun f => f.1) hwf.1 j i kj.1 kt.1
                      (fun hcon => hij hcon.symm) hmj hmi
                  simp only [peek, hkj, alookup_areplace_ne kj.1 kt.1 c field_map hne]
        | _ => first
          | simp [assign_path] at h
          | skip
      | Vec array =>
        cases t with
        | Array length typ =>
          simp only [assign_path] at h
          have harm : ∃ child,
              array[i]? = some child ∧
              ∃ c, assign_path child typ rest vals = some c ∧
                v1 = .Vec (array.set i c) := by
            cases length with
            | some len =>
              dsimp only at h
              split_ifs at h with h1 h2
              cases harr : array[i]? with
              | none => simp [harr] at h
              | some child =>
                rw [harr] at h
                dsimp only at h
                simp only [Option.map_eq_some'] at h
                obtain ⟨c, hc, hv1⟩ := h
                exact ⟨child, rfl, c, hc, hv1.symm⟩
            | none =>
              dsimp only at h
              cases harr : array[i]? with
              | none => rw [harr] at h; simp at h
              | some child =>
                rw [harr] at h
                dsimp only at h
                simp only [Option.map_eq_some'] at h
                obtain ⟨c, hc, hv1⟩ := h
                exact ⟨child, rfl, c, hc, hv1.symm⟩
          obtain ⟨child, harr, c, hc, hv1⟩ := harm
          subst hv1
          have hwfc : wf_type typ = true := by
            rw [wf_type] at hwf
            exact hwf
          by_cases hij : i = j
          · subst hij
            simp only [isIndexPrefixOf, beq_self_eq_true, Bool.true_and] at hp hq
            have hlt : i < array.length := (List.getElem?_eq_some.mp harr).1
            simp only [peek, harr, List.getElem?_set_eq_of_lt c hlt]
            exact ih q1 child typ c hc hwfc hp hq
          · simp only [peek, List.getElem?_set_ne (fun hcon => hij hcon)]
        | Tuple types =>
          simp only [assign_path] at h
          split_ifs at h with h1 h2
          cases htyp : types[i]? with
          | none => rw [htyp] at h; simp at h
          | some typ =>
            cases harr : array[i]? with
            | none => rw [htyp, harr] at h; simp at h
            | some child =>
              rw [htyp, harr] at h
              dsimp only at h
              simp only [Option.map_eq_some'] at h
              obtain ⟨c, hc, hv1⟩ := h
              subst hv1
              rw [wf_type] at hwf
              by_cases hij : i = j
              · subst hij
                simp only [isIndexPrefixOf, beq_self_eq_true, Bool.true_and] at hp hq
                have hwfc : wf_type typ = true :=
                  wf_type_list_mem types hwf typ (List.getElem?_mem htyp)
                have hlt : i < array.length := by omega
                simp only [peek, htyp, harr, List.getElem?_set_eq_of_lt c hlt]
                exact ih q1 child typ c hc hwfc hp hq
              · simp only [peek, List.getElem?_set_ne (fun hcon => hij hcon)]
        | _ => first
          | simp [assign_path] at h
          | skip

end NoirDebugVars

namespace NoirDebugVars

open NoirPrintable

theorem getLast?_decomp {α : Type} : ∀ (l : List α) (a : α),
    l.getLast? = some a → l = l.dropLast ++ [a] := by
  intro l
  induction l with
  | nil => intro a h; simp at h
  | cons x rest ih =>
    intro a h
    cases rest with
    | nil =>
      simp at h
      subst h
      simp
    | cons y rest2 =>
      rw [List.getLast?_cons_cons] at h
      have := ih a h
      rw [List.dropLast_cons₂]
      exact congrArg (x :: ·) this

theorem update_last_frame_spec (f : List (Nat × PrintableValue) → List (Nat × PrintableValue)) :
    ∀ (frames : List (Nat × List (Nat × PrintableValue))) (top : Nat × List (Nat × PrintableValue)),
    frames.getLast? = some top →
    update_last_frame f frames = frames.dropLast ++ [(top.1, f top.2)] := by
  intro frames
  induction frames with
  | nil => intro top h; simp at h
  | cons fr rest ih =>
    intro top h
    cases rest with
    | nil =>
      simp at h
      subst h
      simp [update_last_frame]
    | cons fr2 rest2 =>
      rw [List.getLast?_cons_cons] at h
      rw [update_last_frame]
      · rw [List.dropLast_cons₂]
        exact congrArg (fr :: ·) (ih top h)
      · simp

/-- C3: after a successful assign_field with a valid path on a store with a
non-empty frame stack, the identifier maps are unchanged, all older frames
are unchanged, the top frame keeps its function id and all bindings of other
variables, and the assigned variable now holds its old value with exactly
the sub-value addressed by the path replaced by the decode of the new
values at the sub-type: observing the new value at the path yields that
decode, and observing it at any path disjoint from the assigned one yields
the same as before (for well-formed debug types, whose struct field names
are distinct). -/
theorem c3_assign_field_frame (st st1 : DebugVars) (var_id : Nat)
    (indexes : List Nat) (values : List F)
    (h : assign_field st var_id indexes values = some st1) :
    st1.id_to_name = st.id_to_name ∧
    st1.id_to_type = st.id_to_type ∧
    st1.types = st.types ∧
    st1.frames.dropLast = st.frames.dropLast ∧
    (st1.frames.map fun fr => fr.1) = (st.frames.map fun fr => fr.1) ∧
    (∀ w, w ≠ var_id → get st1 w = get st w) ∧
    ∃ top v t v1,
      st.frames.getLast? = some top ∧
      nlookup var_id top.2 = some v ∧
      (∃ tid, nlookup var_id st.id_to_type = some tid ∧ nlookup tid st.types = some t) ∧
      assign_path v t indexes values = some v1 ∧
      get st1 var_id = some (some v1) ∧
      (∃ sv subt, peek v t indexes = some (sv, subt) ∧
        ∃ x, decode_value values subt = some x ∧
          peek v1 t indexes = some (x.1, subt)) ∧
      (wf_type t = true → ∀ q, isIndexPrefixOf indexes q = false →
        isIndexPrefixOf q indexes = false → peek v1 t q = peek v t q) := by
  unfold assign_field at h
  cases htop : st.frames.getLast? with
  | none => rw [htop] at h; simp at h
  | some top =>
    rw [htop] at h
    dsimp only at h
    cases hcur : nlookup var_id top.2 with
    | none => rw [hcur] at h; simp at h
    | some v =>
      rw [hcur] at h
      dsimp only at h
      cases htid : nlookup var_id st.id_to_type with
      | none => rw [htid] at h; simp at h
      | some tid =>
        rw [htid] at h
        dsimp only at h
        cases hty : nlookup tid st.types with
        | none => rw [hty] at h; simp at h
        | some t =>
          rw [hty] at h
          dsimp only at h
          simp only [Option.map_eq_some'] at h
          obtain ⟨v1, hv1, hst1⟩ := h
          subst hst1
          have hulf := update_last_frame_spec (ninsert var_id v1) st.frames top htop
          have hdec := getLast?_decomp st.frames top htop
          refine ⟨rfl, rfl, rfl, ?_, ?_, ?_, top, v, t, v1, rfl, hcur,
            ⟨tid, rfl, hty⟩, hv1, ?_, assign_path_peek values indexes v t v1 hv1,
            fun hwf q hp hq => assign_path_off_path values indexes q v t v1 hv1 hwf hp hq⟩
          · simp only [hulf]
            rw [List.dropLast_concat]
          · simp only [hulf]
            conv_rhs => rw [hdec]
            simp
          · intro w hw
            simp only [get, hulf, htop]
            rw [List.getLast?_concat]
            simp only [Option.map_some']
            rw [nlookup_ninsert_ne w var_id v1 top.2 hw]
          · simp only [get, hulf]
            rw [List.getLast?_concat]
            simp only [Option.map_some']
            rw [nlookup_ninsert_same]

end NoirDebugVars

namespace NoirDebugVars

open NoirPrintable

/-- C3 witness: assigning field index 1 of a two-field struct variable
succeeds, and the claim theorem yields that unrelated variables are
untouched. -/
theorem c3_assign_field_frame_witness :
    assign_field
      { id_to_name := [(5, "s")],
        frames := [(0, [(5, .Struct [("a", .Field 1), ("b", .Field 2)])])],
        id_to_type := [(5, 3)],
        types := [(3, .Struct "S" [("a", .Field), ("b", .Field)])] } 5 [1] [9] =
      some
        { id_to_name := [(5, "s")],
          frames := [(0, [(5, .Struct [("a", .Field 1), ("b", .Field 9)])])],
          id_to_type := [(5, 3)],
          types := [(3, .Struct "S" [("a", .Field), ("b", .Field)])] } ∧
    get
        { id_to_name := [(5, "s")],
          frames := [(0, [(5, .Struct [("a", .Field 1), ("b", .Field 9)])])],
          id_to_type := [(5, 3)],
          types := [(3, .Struct "S" [("a", .Field), ("b", .Field)])] } 7 =
      get
        { id_to_name := [(5, "s")],
          frames := [(0, [(5, .Struct [("a", .Field 1), ("b", .Field 2)])])],
          id_to_type := [(5, 3)],
          types := [(3, .Struct "S" [("a", .Field), ("b", .Field)])] } 7 := by
  have h : assign_field
      { id_to_name := [(5, "s")],
        frames := [(0, [(5, .Struct [("a", .Field 1), ("b", .Field 2)])])],
        id_to_type := [(5, 3)],
        types := [(3, .Struct "S" [("a", .Field), ("b", .Field)])] } 5 [1] [9] =
      some
        { id_to_name := [(5, "s")],
          frames := [(0, [(5, .Struct [("a", .Field 1), ("b", .Field 9)])])],
          id_to_type := [(5, 3)],
          types := [(3, .Struct "S" [("a", .Field), ("b", .Field)])] } := by
    simp [assign_field, assign_path, nlookup, alookup, areplace, decode_value,
      update_last_frame, ninsert]
  exact ⟨h, (c3_assign_field_frame _ _ 5 [1] [9] h).2.2.2.2.2.1 7 (by decide)⟩

end NoirDebugVars

namespace NoirInstr

theorem evalStmts_nil (env : Env) : evalStmts env [] = (.vUnit, env) := by
  simp [evalStmts]

theorem evalStmts_single (env : Env) (s : Statement) :
    evalStmts env [s] = evalStmt env s := by
  simp [evalStmts]

theorem evalStmts_cons (s : Statement) (ss : List Statement) (hss : ss ≠ [])
    (env : Env) : evalStmts env (s :: ss) = evalStmts (evalStmt env s).2 ss := by
  cases ss with
  | nil => exact absurd rfl hss
  | cons s2 ss2 => simp [evalStmts]

theorem evalStmts_append (b : List Statement) (hb : b ≠ []) :
    ∀ (a : List Statement) (env : Env),
    evalStmts env (a ++ b) = evalStmts (evalStmts env a).2 b := by
  intro a
  induction a with
  | nil =>
    intro env
    simp [evalStmts_nil]
  | cons s a1 ih =>
    intro env
    have hne : a1 ++ b ≠ [] := by
      intro hcon
      exact hb (List.append_eq_nil.mp hcon).2
    rw [List.cons_append, evalStmts_cons s (a1 ++ b) hne, ih]
    cases a1 with
    | nil => simp [evalStmts_nil, evalStmts_single]
    | cons s2 a2 =>
      rw [evalStmts_cons s (s2 :: a2) (by simp)]

theorem evalStmt_drop_var (id : Nat) (env : Env) :
    evalStmt env (wrap_drop_var id) = (.vUnit, env) := by
  cases halk : NoirPrintable.alookup "__debug_var_drop" env with
  | none =>
    simp [wrap_drop_var, evalStmt, evalExpr, evalExprList, int_expr, halk]
  | some v =>
    simp [wrap_drop_var, evalStmt, evalExpr, evalExprList, int_expr, halk]

theorem evalStmts_drops (popped : List (String × Nat)) :
    ∀ env : Env,
    evalStmts env (popped.map fun v => wrap_drop_var v.2) = (.vUnit, env) := by
  induction popped with
  | nil => intro env; simp [evalStmts_nil]
  | cons p rest ih =>
    intro env
    cases hr : rest.map fun v => wrap_drop_var v.2 with
    | nil =>
      simp only [List.map_cons, hr, evalStmts_single, evalStmt_drop_var]
    | cons d ds =>
      simp only [List.map_cons, hr]
      rw [evalStmts_cons _ _ (by simp), evalStmt_drop_var]
      rw [← hr, ih]

theorem walk_scope_exit_eval (popped : List (String × Nat)) (walked : List Statement)
    (e : Expression) (hlast : walked.getLast? = some (.Expr e)) :
    walk_scope_exit popped walked =
      walked.dropLast ++ ([.Let (.Identifier "__debug_expr") e]
        ++ (popped.map fun v => wrap_drop_var v.2)
        ++ [.Expr (.Variable ["__debug_expr"])]) ∧
    ∀ env, (evalStmts env (walk_scope_exit popped walked)).1 =
      (evalStmts env walked).1 := by
  have hstruct : walk_scope_exit popped walked =
      walked.dropLast ++ ([.Let (.Identifier "__debug_expr") e]
        ++ (popped.map fun v => wrap_drop_var v.2)
        ++ [.Expr (.Variable ["__debug_expr"])]) := by
    simp only [walk_scope_exit, hlast, Option.getD_some]
    simp [List.append_assoc]
  refine ⟨hstruct, ?_⟩
  intro env
  rw [hstruct]
  have hwdec := NoirDebugVars.getLast?_decomp walked (.Expr e) hlast
  conv_rhs => rw [hwdec]
  rw [evalStmts_append _ (by simp) walked.dropLast env,
    evalStmts_append _ (by simp) walked.dropLast env]
  set env2 := (evalStmts env walked.dropLast).2 with henv2
  rw [evalStmts_single, List.append_assoc, List.singleton_append,
    evalStmts_cons _ _ (by simp)]
  have hlet : (evalStmt env2 (.Let (.Identifier "__debug_expr") e)).2 =
      ("__debug_expr", (evalExpr env2 e).1) :: (evalExpr env2 e).2 := by
    simp [evalStmt, bindPat]
  rw [hlet]
  rw [evalStmts_append [Statement.Expr (.Variable ["__debug_expr"])] (by simp)]
  rw [evalStmts_drops]
  rw [evalStmts_single]
  simp [evalStmt, evalExpr, NoirPrintable.alookup]

/-- C5: the scope pass of walk_scope preserves the value of the statement
list. When the walked statement list ends in an expression statement E, the
rewritten list is the body, then let __debug_expr = E, then the var_drop
calls of the exited scope, then __debug_expr, and it evaluates to the same
value as the walked list; an empty statement list is rewritten to a block
that evaluates to unit. -/
theorem c5_walk_scope_value (st st2 : DebugState) (stmts out : List Statement)
    (h : walk_scope st stmts = some (st2, out)) :
    (stmts = [] → ∀ env, (evalStmts env out).1 = .vUnit) ∧
    (∀ st1 walked, walk_stmts_each st stmts = some (st1, walked) →
      ∀ e, walked.getLast? = some (.Expr e) →
        out = walked.dropLast ++ ([.Let (.Identifier "__debug_expr") e]
          ++ ((st1.scope.getLast?.getD []).map fun v => wrap_drop_var v.2)
          ++ [.Expr (.Variable ["__debug_expr"])]) ∧
        ∀ env, (evalStmts env out).1 = (evalStmts env walked).1) := by
  rw [walk_scope] at h
  cases hwse : walk_stmts_each st stmts with
  | none => rw [hwse] at h; simp at h
  | some x =>
    rw [hwse] at h
    dsimp only at h
    injection h with h1
    injection h1 with h2 h3
    constructor
    · intro hnil env
      subst hnil
      rw [walk_stmts_each] at hwse
      injection hwse with hx
      have hx2 : x.2 = [] := by rw [← hx]
      rw [← h3]
      have : walk_scope_exit (x.1.scope.getLast?.getD []) x.2 =
          walk_scope_exit (x.1.scope.getLast?.getD []) [.Expr .UnitLit] := by
        rw [hx2]
        simp [walk_scope_exit]
      rw [this]
      have heq := walk_scope_exit_eval (x.1.scope.getLast?.getD [])
        [.Expr .UnitLit] .UnitLit (by simp)
      rw [heq.2 env]
      simp [evalStmts_single, evalStmt, evalExpr]
    · intro st1 walked hwse2 e hlast
      injection hwse2 with hx
      have hst1 : x.1 = st1 := congrArg Prod.fst hx
      have hwalked : x.2 = walked := congrArg Prod.snd hx
      subst hst1
      subst hwalked
      have heq := walk_scope_exit_eval (x.1.scope.getLast?.getD []) x.2 e hlast
      rw [← h3]
      exact ⟨heq.1, fun env => heq.2 env⟩

/-- C5 witness: walking the single-statement scope returning the literal 42
in a scope holding variable y with id 3 produces the documented rewrite and
the same value as the original statement list. -/
theorem c5_walk_scope_value_witness :
    walk_scope { vars := [], next_var_id := 0, scope := [[("y", 3)]], enabled := true }
        [.Expr (.IntLit 42)] =
      some ({ vars := [], next_var_id := 0, scope := [], enabled := true },
        [.Let (.Identifier "__debug_expr") (.IntLit 42), wrap_drop_var 3,
         .Expr (.Variable ["__debug_expr"])]) ∧
    (evalStmts []
        [.Let (.Identifier "__debug_expr") (.IntLit 42), wrap_drop_var 3,
         .Expr (.Variable ["__debug_expr"])]).1 =
      (evalStmts [] [.Expr (.IntLit 42)]).1 := by
  have hws : walk_scope
      { vars := [], next_var_id := 0, scope := [[("y", 3)]], enabled := true }
      [.Expr (.IntLit 42)] =
      some ({ vars := [], next_var_id := 0, scope := [], enabled := true },
        [.Let (.Identifier "__debug_expr") (.IntLit 42), wrap_drop_var 3,
         .Expr (.Variable ["__debug_expr"])]) := by
    simp [walk_scope, walk_stmts_each, walk_statement, walk_expr, walk_scope_exit,
      wrap_drop_var]
  have hc := c5_walk_scope_value _ _ [.Expr (.IntLit 42)] _ hws
  have h2 := (hc.2
    { vars := [], next_var_id := 0, scope := [[("y", 3)]], enabled := true }
    [.Expr (.IntLit 42)]
    (by simp [walk_stmts_each, walk_statement, walk_expr]) (.IntLit 42) rfl).2 []
  exact ⟨hws, by simpa using h2⟩

end NoirInstr

namespace NoirInstr

theorem evolves_refl (st : DebugState) : Evolves st st :=
  ⟨le_refl _, fun _ _ => rfl, fun _ _ => rfl⟩

theorem evolves_trans {a b c : DebugState} (h1 : Evolves a b) (h2 : Evolves b c) :
    Evolves a c := by
  refine ⟨le_trans h1.1 h2.1, ?_, ?_⟩
  · intro id hid
    rw [h2.2.1 id (lt_of_lt_of_le hid h1.1), h1.2.1 id hid]
  · intro id hid
    rw [h2.2.2 id hid, h1.2.2 id (le_trans h2.1 hid)]

theorem evolves_scope (st : DebugState) (sc : List (List (String × Nat))) :
    Evolves st { st with scope := sc } :=
  ⟨le_refl _, fun _ _ => rfl, fun _ _ => rfl⟩

theorem vars_bounded_of_evolves {st st1 : DebugState} (hb : VarsBounded st)
    (he : Evolves st st1) : VarsBounded st1 := by
  intro id n hl
  by_contra hcon
  push_neg at hcon
  rw [he.2.2 id hcon] at hl
  exact absurd (le_trans he.1 hcon) (not_le_of_lt (hb id n hl))

theorem insert_var_spec (st : DebugState) (name : String) (id : Nat)
    (st1 : DebugState) (h : insert_var st name = some (id, st1)) :
    id = st.next_var_id ∧ st1.next_var_id = st.next_var_id + 1 ∧
    vlookup st1 id = some name ∧
    ∀ j, j ≠ id → vlookup st1 j = vlookup st j := by
  rw [insert_var] at h
  cases hg : st.scope.getLast? with
  | none => rw [hg] at h; simp at h
  | some frame =>
    rw [hg] at h
    dsimp only at h
    injection h with h1
    injection h1 with hid hst1
    subst hid
    subst hst1
    refine ⟨rfl, rfl, ?_, ?_⟩
    · exact NoirDebugVars.nlookup_ninsert_same _ _ _
    · intro j hj
      exact NoirDebugVars.nlookup_ninsert_ne _ _ _ _ hj

theorem insert_var_evolves {st : DebugState} {name : String}
    {x : Nat × DebugState} (h : insert_var st name = some x) : Evolves st x.2 := by
  obtain ⟨hid, hnext, _, hother⟩ := insert_var_spec st name x.1 x.2 (by rw [← h])
  refine ⟨by omega, ?_, ?_⟩
  · intro id hlt
    exact hother id (by omega)
  · intro id hge
    exact hother id (by omega)

theorem assign_var_stmts_evolves :
    ∀ (vs : List (String × Bool)) (st : DebugState)
      (x : DebugState × List Statement),
    assign_var_stmts st vs = some x → Evolves st x.1 := by
  intro vs
  induction vs with
  | nil =>
    intro st x h
    simp only [assign_var_stmts] at h
    injection h with h1
    subst h1
    exact evolves_refl st
  | cons v rest ih =>
    intro st x h
    obtain ⟨name, ismut⟩ := v
    simp only [assign_var_stmts] at h
    cases h1 : insert_var st name with
    | none => rw [h1] at h; simp at h
    | some y =>
      rw [h1] at h
      dsimp only at h
      simp only [Option.map_eq_some'] at h
      obtain ⟨z, hz, hxz⟩ := h
      subst hxz
      exact evolves_trans (insert_var_evolves h1) (ih y.2 z hz)

theorem insert_pattern_vars_evolves :
    ∀ (vs : List (String × Bool)) (st : DebugState)
      (x : DebugState × List (Nat × String)),
    insert_pattern_vars st vs = some x → Evolves st x.1 := by
  intro vs
  induction vs with
  | nil =>
    intro st x h
    simp only [insert_pattern_vars] at h
    injection h with h1
    subst h1
    exact evolves_refl st
  | cons v rest ih =>
    intro st x h
    obtain ⟨name, ismut⟩ := v
    simp only [insert_pattern_vars] at h
    cases h1 : insert_var st name with
    | none => rw [h1] at h; simp at h
    | some y =>
      rw [h1] at h
      dsimp only at h
      simp only [Option.map_eq_some'] at h
      obtain ⟨z, hz, hxz⟩ := h
      subst hxz
      exact evolves_trans (insert_var_evolves h1) (ih y.2 z hz)

theorem param_vars_evolves :
    ∀ (ps : List Pattern) (st : DebugState)
      (x : DebugState × List (Nat × String)),
    param_vars st ps = some x → Evolves st x.1 := by
  intro ps
  induction ps with
  | nil =>
    intro st x h
    simp only [param_vars] at h
    injection h with h1
    subst h1
    exact evolves_refl st
  | cons pat rest ih =>
    intro st x h
    simp only [param_vars] at h
    cases h1 : insert_pattern_vars st (pattern_vars pat) with
    | none => rw [h1] at h; simp at h
    | some y =>
      rw [h1] at h
      dsimp only at h
      simp only [Option.map_eq_some'] at h
      obtain ⟨z, hz, hxz⟩ := h
      subst hxz
      exact evolves_trans (insert_pattern_vars_evolves _ st y h1) (ih y.1 z hz)

theorem wrap_let_statement_evolves (st : DebugState) (pat : Pattern)
    (expr : Expression) (x : DebugState × Statement)
    (h : wrap_let_statement st pat expr = some x) : Evolves st x.1 := by
  simp only [wrap_let_statement, Option.map_eq_some'] at h
  obtain ⟨z, hz, hxz⟩ := h
  subst hxz
  exact assign_var_stmts_evolves _ st z hz

end NoirInstr

namespace NoirInstr

mutual

theorem walk_expr_evolves (st : DebugState) (e : Expression)
    (x : DebugState × Expression) (h : walk_expr st e = some x) :
    Evolves st x.1 := by
  cases e with
  | Block stmts =>
    simp only [walk_expr, Option.map_eq_some'] at h
    obtain ⟨y, hy, hxy⟩ := h
    subst hxy
    exact evolves_trans (evolves_scope st (st.scope ++ [[]]))
      (walk_scope_evolves _ stmts y hy)
  | Prefix rhs =>
    simp only [walk_expr, Option.map_eq_some'] at h
    obtain ⟨y, hy, hxy⟩ := h
    subst hxy
    exact walk_expr_evolves st rhs y hy
  | Index collection index =>
    simp only [walk_expr] at h
    cases h1 : walk_expr st collection with
    | none => rw [h1] at h; simp at h
    | some y =>
      rw [h1] at h
      dsimp only at h
      simp only [Option.map_eq_some'] at h
      obtain ⟨z, hz, hxz⟩ := h
      subst hxz
      exact evolves_trans (walk_expr_evolves st collection y h1)
        (walk_expr_evolves y.1 index z hz)
  | Call func args =>
    simp only [walk_expr] at h
    cases h1 : walk_expr st func with
    | none => rw [h1] at h; simp at h
    | some y =>
      rw [h1] at h
      dsimp only at h
      simp only [Option.map_eq_some'] at h
      obtain ⟨z, hz, hxz⟩ := h
      subst hxz
      exact evolves_trans (walk_expr_evolves st func y h1)
        (walk_expr_list_evolves y.1 args z hz)
  | MethodCall object args =>
    simp only [walk_expr] at h
    cases h1 : walk_expr st object with
    | none => rw [h1] at h; simp at h
    | some y =>
      rw [h1] at h
      dsimp only at h
      simp only [Option.map_eq_some'] at h
      obtain ⟨z, hz, hxz⟩ := h
      subst hxz
      exact evolves_trans (walk_expr_evolves st object y h1)
        (walk_expr_list_evolves y.1 args z hz)
  | Constructor fields =>
    simp only [walk_expr, Option.map_eq_some'] at h
    obtain ⟨y, hy, hxy⟩ := h
    subst hxy
    exact walk_named_exprs_evolves st fields y hy
  | MemberAccess lhs fieldName =>
    simp only [walk_expr, Option.map_eq_some'] at h
    obtain ⟨y, hy, hxy⟩ := h
    subst hxy
    exact walk_expr_evolves st lhs y hy
  | Cast lhs =>
    simp only [walk_expr, Option.map_eq_some'] at h
    obtain ⟨y, hy, hxy⟩ := h
    subst hxy
    exact walk_expr_evolves st lhs y hy
  | Infix lhs rhs =>
    simp only [walk_expr] at h
    cases h1 : walk_expr st lhs with
    | none => rw [h1] at h; simp at h
    | some y =>
      rw [h1] at h
      dsimp only at h
      simp only [Option.map_eq_some'] at h
      obtain ⟨z, hz, hxz⟩ := h
      subst hxz
      exact evolves_trans (walk_expr_evolves st lhs y h1)
        (walk_expr_evolves y.1 rhs z hz)
  | If cond conseq alt =>
    cases alt with
    | none =>
      simp only [walk_expr] at h
      cases h1 : walk_expr st cond with
      | none => rw [h1] at h; simp at h
      | some y =>
        rw [h1] at h
        dsimp only at h
        simp only [Option.map_eq_some'] at h
        obtain ⟨z, hz, hxz⟩ := h
        subst hxz
        exact evolves_trans (walk_expr_evolves st cond y h1)
          (walk_expr_evolves y.1 conseq z hz)
    | some a =>
      simp only [walk_expr] at h
      cases h1 : walk_expr st cond with
      | none => rw [h1] at h; simp at h
      | some y =>
        rw [h1] at h
        dsimp only at h
        cases h2 : walk_expr y.1 conseq with
        | none => rw [h2] at h; simp at h
        | some z =>
          rw [h2] at h
          dsimp only at h
          simp only [Option.map_eq_some'] at h
          obtain ⟨w, hw, hxw⟩ := h
          subst hxw
          exact evolves_trans (walk_expr_evolves st cond y h1)
            (evolves_trans (walk_expr_evolves y.1 conseq z h2)
              (walk_expr_evolves z.1 a w hw))
  | Tuple exprs =>
    simp only [walk_expr, Option.map_eq_some'] at h
    obtain ⟨y, hy, hxy⟩ := h
    subst hxy
    exact walk_expr_list_evolves st exprs y hy
  | Lambda body =>
    simp only [walk_expr, Option.map_eq_some'] at h
    obtain ⟨y, hy, hxy⟩ := h
    subst hxy
    exact walk_expr_evolves st body y hy
  | Parenthesized e1 =>
    simp only [walk_expr, Option.map_eq_some'] at h
    obtain ⟨y, hy, hxy⟩ := h
    subst hxy
    exact walk_expr_evolves st e1 y hy
  | IntLit n =>
    simp only [walk_expr] at h
    injection h with h1
    subst h1
    exact evolves_refl st
  | StrLit s =>
    simp only [walk_expr] at h
    injection h with h1
    subst h1
    exact evolves_refl st
  | UnitLit =>
    simp only [walk_expr] at h
    injection h with h1
    subst h1
    exact evolves_refl st
  | ArrayLit es =>
    simp only [walk_expr] at h
    injection h with h1
    subst h1
    exact evolves_refl st
  | Variable segments =>
    simp only [walk_expr] at h
    injection h with h1
    subst h1
    exact evolves_refl st
  | Other =>
    simp only [walk_expr] at h
    injection h with h1
    subst h1
    exact evolves_refl st
termination_by (sizeOf e, 0)

theorem walk_expr_list_evolves (st : DebugState) (es : List Expression)
    (x : DebugState × List Expression) (h : walk_expr_list st es = some x) :
    Evolves st x.1 := by
  cases es with
  | nil =>
    simp only [walk_expr_list] at h
    injection h with h1
    subst h1
    exact evolves_refl st
  | cons e es2 =>
    simp only [walk_expr_list] at h
    cases h1 : walk_expr st e with
    | none => rw [h1] at h; simp at h
    | some y =>
      rw [h1] at h
      dsimp only at h
      simp only [Option.map_eq_some'] at h
      obtain ⟨z, hz, hxz⟩ := h
      subst hxz
      exact evolves_trans (walk_expr_evolves st e y h1)
        (walk_expr_list_evolves y.1 es2 z hz)
termination_by (sizeOf es, 0)

theorem walk_named_exprs_evolves (st : DebugState)
    (es : List (String × Expression))
    (x : DebugState × List (String × Expression))
    (h : walk_named_exprs st es = some x) : Evolves st x.1 := by
  cases es with
  | nil =>
    simp only [walk_named_exprs] at h
    injection h with h1
    subst h1
    exact evolves_refl st
  | cons ne es2 =>
    have h2 : walk_named_exprs st ((ne.1, ne.2) :: es2) = some x := h
    simp only [walk_named_exprs] at h2
    cases h1 : walk_expr st ne.2 with
    | none => rw [h1] at h2; simp at h2
    | some y =>
      rw [h1] at h2
      dsimp only at h2
      simp only [Option.map_eq_some'] at h2
      obtain ⟨z, hz, hxz⟩ := h2
      subst hxz
      exact evolves_trans (walk_expr_evolves st ne.2 y h1)
        (walk_named_exprs_evolves y.1 es2 z hz)
termination_by (sizeOf es, 0)
decreasing_by
  all_goals
    simp_wf
    subst_vars
    rcases ne with ⟨n, e⟩
    rw [Prod.lex_iff]
    simp
  all_goals omega

theorem walk_statement_evolves (st : DebugState) (s : Statement)
    (x : DebugState × Statement) (h : walk_statement st s = some x) :
    Evolves st x.1 := by
  cases s with
  | Let pat expr =>
    simp only [walk_statement] at h
    exact wrap_let_statement_evolves st pat expr x h
  | Assign lvalue expr =>
    simp only [walk_statement, Option.map_eq_some'] at h
    obtain ⟨y, hy, hxy⟩ := h
    subst hxy
    exact evolves_refl st
  | Expr e =>
    simp only [walk_statement, Option.map_eq_some'] at h
    obtain ⟨y, hy, hxy⟩ := h
    subst hxy
    exact walk_expr_evolves st e y hy
  | Semi e =>
    simp only [walk_statement, Option.map_eq_some'] at h
    obtain ⟨y, hy, hxy⟩ := h
    subst hxy
    exact walk_expr_evolves st e y hy
  | For ident range block =>
    simp only [walk_statement] at h
    exact walk_for_evolves st ident range block x h
  | Constrain e =>
    simp only [walk_statement] at h
    injection h with h1
    subst h1
    exact evolves_refl st
  | Error =>
    simp only [walk_statement] at h
    injection h with h1
    subst h1
    exact evolves_refl st
termination_by (sizeOf s, 1)

theorem walk_for_evolves (st : DebugState) (ident : String) (range : Expression)
    (block : Expression) (x : DebugState × Statement)
    (h : walk_for st ident range block = some x) : Evolves st x.1 := by
  simp only [walk_for] at h
  cases h1 : insert_var st ident with
  | none => rw [h1] at h; simp at h
  | some y =>
    rw [h1] at h
    dsimp only at h
    simp only [Option.map_eq_some'] at h
    obtain ⟨z, hz, hxz⟩ := h
    subst hxz
    exact evolves_trans (insert_var_evolves h1) (walk_expr_evolves y.2 block z hz)
termination_by (sizeOf block, 5)

theorem walk_stmts_each_evolves (st : DebugState) (ss : List Statement)
    (x : DebugState × List Statement) (h : walk_stmts_each st ss = some x) :
    Evolves st x.1 := by
  cases ss with
  | nil =>
    simp only [walk_stmts_each] at h
    injection h with h1
    subst h1
    exact evolves_refl st
  | cons s ss2 =>
    simp only [walk_stmts_each] at h
    cases h1 : walk_statement st s with
    | none => rw [h1] at h; simp at h
    | some y =>
      rw [h1] at h
      dsimp only at h
      simp only [Option.map_eq_some'] at h
      obtain ⟨z, hz, hxz⟩ := h
      subst hxz
      exact evolves_trans (walk_statement_evolves st s y h1)
        (walk_stmts_each_evolves y.1 ss2 z hz)
termination_by (sizeOf ss, 2)

theorem walk_scope_evolves (st : DebugState) (stmts : List Statement)
    (x : DebugState × List Statement) (h : walk_scope st stmts = some x) :
    Evolves st x.1 := by
  rw [walk_scope] at h
  cases h1 : walk_stmts_each st stmts with
  | none => rw [h1] at h; simp at h
  | some y =>
    rw [h1] at h
    dsimp only at h
    injection h with h2
    subst h2
    exact evolves_trans (walk_stmts_each_evolves st stmts y h1)
      (evolves_scope y.1 y.1.scope.dropLast)
termination_by (sizeOf stmts, 3)

end

end NoirInstr

namespace NoirInstr

theorem walk_fn_evolves (st : DebugState) (f : FunctionDefinition)
    (x : DebugState × FunctionDefinition) (h : walk_fn st f = some x) :
    Evolves st x.1 := by
  simp only [walk_fn] at h
  cases h1 : param_vars { st with scope := st.scope ++ [[]] } f.parameters with
  | none => rw [h1] at h; simp at h
  | some y =>
    rw [h1] at h
    dsimp only at h
    simp only [Option.map_eq_some'] at h
    obtain ⟨z, hz, hxz⟩ := h
    subst hxz
    exact evolves_trans (evolves_scope st (st.scope ++ [[]]))
      (evolves_trans (param_vars_evolves f.parameters _ y h1)
        (walk_scope_evolves y.1 f.body z hz))

theorem walk_items_evolves :
    ∀ (items : List Item) (st : DebugState) (x : DebugState × List Item),
    walk_items st items = some x → Evolves st x.1 := by
  intro items
  induction items with
  | nil =>
    intro st x h
    simp only [walk_items] at h
    injection h with h1
    subst h1
    exact evolves_refl st
  | cons it rest ih =>
    intro st x h
    cases it with
    | Function f =>
      simp only [walk_items] at h
      cases h1 : walk_fn st f with
      | none => rw [h1] at h; simp at h
      | some y =>
        rw [h1] at h
        dsimp only at h
        simp only [Option.map_eq_some'] at h
        obtain ⟨z, hz, hxz⟩ := h
        subst hxz
        exact evolves_trans (walk_fn_evolves st f y h1) (ih y.1 z hz)
    | OtherItem =>
      simp only [walk_items, Option.map_eq_some'] at h
      obtain ⟨z, hz, hxz⟩ := h
      subst hxz
      exact ih st z hz

theorem insert_symbols_evolves (st : DebugState) (m : ParsedModule)
    (x : DebugState × ParsedModule) (h : insert_symbols st m = some x) :
    Evolves st x.1 := by
  rw [insert_symbols] at h
  split_ifs at h with hcond
  · injection h with h1
    subst h1
    exact evolves_refl st
  · cases h1 : walk_items st m.items with
    | none => rw [h1] at h; simp at h
    | some y =>
      rw [h1] at h
      dsimp only at h
      injection h with h2
      subst h2
      exact walk_items_evolves m.items st y h1

/-- C6: variable-id allocation by the instrumenter is deterministic and
monotone. Two runs of insert_symbols on equal states and modules give equal
results; insert_var hands out the current next_var_id, increments the
counter, binds exactly that id and touches no other; and a successful
insert_symbols run never decreases the counter, keeps every previously
allocated id bound as before, and binds new ids only inside the half-open
range it consumed. -/
theorem c6_var_id_allocation :
    (∀ (st1 st2 : DebugState) (m1 m2 : ParsedModule), st1 = st2 → m1 = m2 →
      insert_symbols st1 m1 = insert_symbols st2 m2) ∧
    (∀ (st : DebugState) (name : String) (id : Nat) (st1 : DebugState),
      insert_var st name = some (id, st1) →
        id = st.next_var_id ∧ st1.next_var_id = st.next_var_id + 1 ∧
        vlookup st1 id = some name ∧
        ∀ j, j ≠ id → vlookup st1 j = vlookup st j) ∧
    (∀ (st : DebugState) (m : ParsedModule) (st2 : DebugState) (m2 : ParsedModule),
      insert_symbols st m = some (st2, m2) → VarsBounded st →
        st.next_var_id ≤ st2.next_var_id ∧ VarsBounded st2 ∧
        (∀ id, id < st.next_var_id → vlookup st2 id = vlookup st id) ∧
        (∀ id n, vlookup st2 id = some n →
          vlookup st id = some n ∨
            (st.next_var_id ≤ id ∧ id < st2.next_var_id))) := by
  refine ⟨?_, ?_, ?_⟩
  · intro st1 st2 m1 m2 h1 h2
    rw [h1, h2]
  · intro st name id st1 h
    exact insert_var_spec st name id st1 h
  · intro st m st2 m2 hins hvb
    have he := insert_symbols_evolves st m (st2, m2) hins
    refine ⟨he.1, vars_bounded_of_evolves hvb he, he.2.1, ?_⟩
    intro id n hl
    by_cases hid : id < st.next_var_id
    · left
      rw [← he.2.1 id hid]
      exact hl
    · right
      exact ⟨le_of_not_lt hid, vars_bounded_of_evolves hvb he id n hl⟩

/-- C6 witness: inserting the variable x at counter 5 hands out id 5 and
moves the counter to 6; running insert_symbols over a one-function module
from counter 5 keeps the old binding of id 2 and allocates the new id 5
inside the consumed range. -/
theorem c6_var_id_allocation_witness :
    insert_var { vars := [(2, "old")], next_var_id := 5, scope := [[]], enabled := true } "x" =
      some (5, { vars := [(2, "old"), (5, "x")], next_var_id := 6, scope := [[("x", 5)]], enabled := true }) ∧
    vlookup { vars := [(2, "old"), (5, "x")], next_var_id := 6, scope := [[("x", 5)]], enabled := true } 5 = some "x" ∧
    vlookup { vars := [(2, "old"), (5, "x")], next_var_id := 6, scope := [], enabled := true } 2 =
      vlookup { vars := [(2, "old")], next_var_id := 5, scope := [], enabled := true } 2 ∧
    ((5 : Nat) ≤ 5 ∧ (5 : Nat) < 6) := by
  have hiv : insert_var { vars := [(2, "old")], next_var_id := 5, scope := [[]], enabled := true } "x" =
      some (5, { vars := [(2, "old"), (5, "x")], next_var_id := 6, scope := [[("x", 5)]], enabled := true }) := by
    simp [insert_var, NoirDebugVars.ninsert, updateLast, sinsert]
  have hins : insert_symbols
      { vars := [(2, "old")], next_var_id := 5, scope := [], enabled := true }
      { items := [.Function { name := "main", parameters := [.Identifier "x"], body := [] }] } =
      some ({ vars := [(2, "old"), (5, "x")], next_var_id := 6, scope := [], enabled := true },
        { items := .Function { name := "main", parameters := [.Identifier "x"], body := [wrap_assign_var 5 (id_expr "x"), .Let (.Identifier "__debug_expr") .UnitLit, wrap_drop_var 5, .Expr (.Variable ["__debug_expr"])] } :: oracle_items }) := by
    simp [insert_symbols, walk_items, walk_fn, param_vars, insert_pattern_vars,
      pattern_vars, pattern_vars_go, insert_var, updateLast, sinsert,
      NoirDebugVars.ninsert, walk_scope, walk_stmts_each, walk_scope_exit,
      wrap_assign_var, wrap_drop_var, id_expr, int_expr]
  have hvb : VarsBounded
      { vars := [(2, "old")], next_var_id := 5, scope := [], enabled := true } := by
    intro id n hl
    by_cases h2 : id = 2
    · subst h2; decide
    · simp [vlookup, NoirDebugVars.nlookup, h2] at hl
  have hspec := c6_var_id_allocation.2.1 _ "x" 5 _ hiv
  have hmain := c6_var_id_allocation.2.2 _ _ _ _ hins hvb
  refine ⟨hiv, hspec.2.2.1, hmain.2.2.1 2 (by decide), ?_⟩
  have h5 : vlookup { vars := [(2, "old"), (5, "x")], next_var_id := 6, scope := [], enabled := true } 5 = some "x" := by
    simp [vlookup, NoirDebugVars.nlookup]
  rcases hmain.2.2.2 5 "x" h5 with hleft | hright
  · simp [vlookup, NoirDebugVars.nlookup] at hleft
  · exact hright

end NoirInstr
